import Mathlib

/-!
Shallow embedding of the Vision Transformer script `VIT_TORCH.py` and
verification of its specification claims.

Tensors are modelled as nested lists; real-valued computation uses `ℝ`.
Fallible operations (assertion failures, shape-mismatch errors,
division-by-zero) return `Option`.
-/

namespace VIT

/-! ## Patch extractor (`patchify`, lines 18-30) -/

/-- One image: a list of channels, each a list of rows. -/
abbrev Image (α : Type) := List (List (List α))

/-- `m` is an `r × c` matrix (as a list of rows). -/
abbrev HasShape2 (m : List (List α)) (r c : ℕ) : Prop :=
  m.length = r ∧ ∀ row ∈ m, row.length = c

/-- `t` is a `c × h × w` stack of matrices. -/
abbrev HasShape3 (t : Image α) (c h w : ℕ) : Prop :=
  t.length = c ∧ ∀ ch ∈ t, HasShape2 ch h w

/-- `b` is an `n × c × h × w` batch. -/
abbrev HasShape4 (b : List (Image α)) (n c h w : ℕ) : Prop :=
  b.length = n ∧ ∀ im ∈ b, HasShape3 im c h w

/-- The sub-block `image[:, i*ps:(i+1)*ps, j*ps:(j+1)*ps]` of an image:
per channel, rows `[i*ps, (i+1)*ps)` restricted to columns `[j*ps, (j+1)*ps)`. -/
def patchGrid (image : Image α) (ps i j : ℕ) : Image α :=
  image.map (fun ch =>
    ((ch.drop (i * ps)).take ps).map (fun row => (row.drop (j * ps)).take ps))

/-- The sub-block flattened by `patch.flatten()`: channel-major, then
row-major, then column-minor. -/
def patchSlice (image : Image α) (ps i j : ℕ) : List α :=
  List.flatten (List.flatten (patchGrid image ps i j))

/-- Writing a flattened patch into a row of the preallocated `patches`
buffer (`patches[idx, i*n_patches+j] = patch.flatten()`).  The write
succeeds when the lengths agree, broadcasts a single element across the
slot, and otherwise raises a shape-mismatch error. -/
def assignSlot (flat : List α) (slotLen : ℕ) : Option (List α) :=
  if flat.length = slotLen then some flat
  else
    match flat with
    | [x] => some (List.replicate slotLen x)
    | _ => none

/-- `patchify(images, n_patches)`.  The `assert h == w` is modelled by the
first guard; `n_patches = 0` makes the buffer-width division raise, hence
the second guard.  The buffer rows have width `h * w / n_patches ^ 2` and
the patch side used for slicing is `h / n_patches` (Python `//`). -/
def patchify (images : List (Image α)) (h w n_patches : ℕ) :
    Option (List (List (List α))) :=
  if h = w then
    if n_patches = 0 then none
    else
      images.mapM (fun image =>
        (List.mapM (fun i =>
            List.mapM (fun j =>
                assignSlot (patchSlice image (h / n_patches) i j)
                  (h * w / n_patches ^ 2))
              (List.range n_patches))
          (List.range n_patches)).map List.flatten)
  else none

/-! ## Generic list lemmas -/

lemma getD_eq_getElem (l : List α) (d : α) (i : ℕ) (h : i < l.length) :
    l.getD i d = l[i] := by
  simp [List.getD, List.getElem?_eq_getElem h]

lemma getD_map (f : α → β) (l : List α) (i : ℕ) (h : i < l.length)
    (d : β) (d' : α) : (l.map f).getD i d = f (l.getD i d') := by
  rw [getD_eq_getElem _ _ _ (by simpa using h), getD_eq_getElem _ _ _ h]
  simp

lemma mapM_option_eq_some_of_map {f : α → Option β} {g : α → β} {l : List α}
    (h : ∀ a ∈ l, f a = some (g a)) : l.mapM f = some (l.map g) := by
  induction l with
  | nil => rfl
  | cons a t ih =>
    rw [List.mapM_cons, h a (by simp)]
    rw [ih (fun x hx => h x (by simp [hx]))]
    rfl

lemma mapM_option_eq_none {f : α → Option β} {l : List α} {a : α}
    (ha : a ∈ l) (hfa : f a = none) : l.mapM f = none := by
  induction l with
  | nil => simp at ha
  | cons b t ih =>
    rw [List.mapM_cons]
    rcases List.mem_cons.mp ha with rfl | ha'
    · rw [hfa]; rfl
    · cases hfb : f b with
      | none => rfl
      | some y => rw [ih ha']; rfl

lemma mapM_option_isSome {f : α → Option β} {l : List α}
    (h : ∀ a ∈ l, (f a).isSome) : (l.mapM f).isSome := by
  induction l with
  | nil => rfl
  | cons a t ih =>
    rw [List.mapM_cons]
    rcases Option.isSome_iff_exists.mp (h a (by simp)) with ⟨b, hb⟩
    rcases Option.isSome_iff_exists.mp
      (ih (fun x hx => h x (by simp [hx]))) with ⟨bs, hbs⟩
    rw [hb, hbs]
    rfl

lemma length_flatten_uniform {l : List (List α)} {m : ℕ}
    (h : ∀ x ∈ l, x.length = m) : l.flatten.length = l.length * m := by
  induction l with
  | nil => simp
  | cons a t ih =>
    simp only [List.flatten_cons, List.length_append, List.length_cons]
    rw [h a (by simp), ih (fun x hx => h x (by simp [hx]))]
    ring

lemma getD_flatten_uniform {l : List (List α)} {m : ℕ}
    (h : ∀ x ∈ l, x.length = m) (a b : ℕ) (ha : a < l.length) (hb : b < m)
    (d : α) : l.flatten.getD (a * m + b) d = (l.getD a []).getD b d := by
  induction l generalizing a with
  | nil => simp at ha
  | cons x t ih =>
    cases a with
    | zero =>
      have hx : x.length = m := h x (by simp)
      simp only [List.flatten_cons, Nat.zero_mul, Nat.zero_add,
        List.getD_eq_getElem?_getD, List.getD_cons_zero]
      rw [List.getElem?_append_left (by omega)]
      simp
    | succ a' =>
      have hx : x.length = m := h x (by simp)
      have key : (a' + 1) * m + b = x.length + (a' * m + b) := by
        rw [hx]; ring
      simp only [List.flatten_cons, List.getD_eq_getElem?_getD,
        List.getD_cons_succ, key]
      rw [List.getElem?_append_right (by omega), Nat.add_sub_cancel_left]
      have := ih (fun y hy => h y (by simp [hy])) a' (by simpa using ha)
      simpa [List.getD_eq_getElem?_getD] using this

lemma getD_take_drop (l : List α) (off n k : ℕ) (hk : k < n)
    (hkl : off + n ≤ l.length) (d : α) :
    ((l.drop off).take n).getD k d = l.getD (off + k) d := by
  have h1 : k < ((l.drop off).take n).length := by
    simp only [List.length_take, List.length_drop]
    omega
  rw [getD_eq_getElem _ _ _ h1, List.getElem_take, List.getElem_drop,
    getD_eq_getElem _ _ _ (by omega)]

lemma getD_mem {l : List α} {i : ℕ} (h : i < l.length) (d : α) :
    l.getD i d ∈ l := by
  rw [getD_eq_getElem _ _ _ h]
  exact List.getElem_mem h

/-! ## Shapes and entries of patch slices -/

lemma length_flatten_flatten {t : List (List (List α))} {c p q : ℕ}
    (hs : HasShape3 t c p q) : t.flatten.flatten.length = c * (p * q) := by
  obtain ⟨hc, hch⟩ := hs
  have h1 : ∀ x ∈ t, x.length = p := fun x hx => (hch x hx).1
  have h2 : ∀ y ∈ t.flatten, y.length = q := by
    intro y hy
    obtain ⟨x, hx, hyx⟩ := List.mem_flatten.mp hy
    exact (hch x hx).2 y hyx
  rw [length_flatten_uniform h2, length_flatten_uniform h1, hc]
  ring

lemma getD_flatten_flatten {t : List (List (List α))} {c p q : ℕ}
    (hs : HasShape3 t c p q) {a b e : ℕ} (ha : a < c) (hb : b < p)
    (he : e < q) (d : α) :
    t.flatten.flatten.getD (a * (p * q) + (b * q + e)) d =
      ((t.getD a []).getD b []).getD e d := by
  obtain ⟨hc, hch⟩ := hs
  have h1 : ∀ x ∈ t, x.length = p := fun x hx => (hch x hx).1
  have h2 : ∀ y ∈ t.flatten, y.length = q := by
    intro y hy
    obtain ⟨x, hx, hyx⟩ := List.mem_flatten.mp hy
    exact (hch x hx).2 y hyx
  have hidx : a * (p * q) + (b * q + e) = (a * p + b) * q + e := by ring
  have hflen : t.flatten.length = c * p := by
    rw [length_flatten_uniform h1, hc]
  have hab : a * p + b < c * p := by
    have hstep : a * p + b < (a + 1) * p := by
      rw [Nat.succ_mul]
      omega
    exact lt_of_lt_of_le hstep (Nat.mul_le_mul_right p (by omega))
  rw [hidx, getD_flatten_uniform h2 (a * p + b) e (by omega) he d,
    getD_flatten_uniform h1 a b (by omega) hb []]

lemma patchGrid_shape {image : Image α} {c h w : ℕ} (hs : HasShape3 image c h w)
    {ps i j : ℕ} (hrow : i * ps + ps ≤ h) (hcol : j * ps + ps ≤ w) :
    HasShape3 (patchGrid image ps i j) c ps ps := by
  obtain ⟨hc, hch⟩ := hs
  refine ⟨by simp [patchGrid, hc], ?_⟩
  intro x hx
  obtain ⟨chn, hmem, rfl⟩ := List.mem_map.mp hx
  obtain ⟨hlen, hrows⟩ := hch chn hmem
  constructor
  · simp only [List.length_map, List.length_take, List.length_drop, hlen]
    omega
  · intro row hrowmem
    obtain ⟨row0, hrow0, rfl⟩ := List.mem_map.mp hrowmem
    have hr0 : row0 ∈ chn :=
      List.mem_of_mem_drop (List.mem_of_mem_take hrow0)
    have hrl : row0.length = w := hrows row0 hr0
    simp only [List.length_take, List.length_drop, hrl]
    omega

lemma patchGrid_getD {image : Image α} {c h w : ℕ} (hs : HasShape3 image c h w)
    {ps i j a b e : ℕ} (ha : a < c) (hb : b < ps) (he : e < ps)
    (hrow : i * ps + ps ≤ h) (hcol : j * ps + ps ≤ w) (d : α) :
    (((patchGrid image ps i j).getD a []).getD b []).getD e d =
      ((image.getD a []).getD (i * ps + b) []).getD (j * ps + e) d := by
  obtain ⟨hc, hch⟩ := hs
  have haim : a < image.length := by omega
  have hX : image.getD a [] ∈ image := getD_mem haim []
  obtain ⟨hXlen, hXrows⟩ := hch _ hX
  rw [show (patchGrid image ps i j).getD a [] =
      (((image.getD a []).drop (i * ps)).take ps).map
        (fun row => (row.drop (j * ps)).take ps) from
    getD_map _ image a haim [] []]
  have hbl : b < (((image.getD a []).drop (i * ps)).take ps).length := by
    simp only [List.length_take, List.length_drop, hXlen]
    omega
  rw [getD_map _ _ b hbl [] []]
  rw [getD_take_drop _ _ _ _ hb (by omega) []]
  have hrowmem : (image.getD a []).getD (i * ps + b) [] ∈ image.getD a [] :=
    getD_mem (by omega) []
  have hrl : ((image.getD a []).getD (i * ps + b) []).length = w :=
    hXrows _ hrowmem
  rw [getD_take_drop _ _ _ _ he (by omega) d]

/-- Bound used when slicing grid cell `i < P`: the rows
`[i*(h/P), (i+1)*(h/P))` stay inside the image. -/
lemma slice_bound {i P h : ℕ} (hi : i < P) : i * (h / P) + h / P ≤ h := by
  have h1 : (i + 1) * (h / P) ≤ P * (h / P) :=
    Nat.mul_le_mul_right _ (by omega)
  have h2 : P * (h / P) ≤ h := by
    rw [Nat.mul_comm]
    exact Nat.div_mul_le_self h P
  calc i * (h / P) + h / P = (i + 1) * (h / P) := by ring
    _ ≤ P * (h / P) := h1
    _ ≤ h := h2

lemma patchSlice_length {image : Image α} {c h w : ℕ}
    (h3 : HasShape3 image c h w) (hw : h = w) {P i j : ℕ}
    (hi : i < P) (hj : j < P) :
    (patchSlice image (h / P) i j).length = c * (h / P * (h / P)) := by
  have hrow : i * (h / P) + h / P ≤ h := slice_bound hi
  have hcol : j * (h / P) + h / P ≤ w := hw ▸ slice_bound hj
  exact length_flatten_flatten (patchGrid_shape h3 hrow hcol)

/-! ## Success and failure of `patchify` -/

lemma assignSlot_eq_none {flat : List α} {slotLen : ℕ}
    (h1 : flat.length ≠ slotLen) (h2 : flat.length ≠ 1) :
    assignSlot flat slotLen = none := by
  unfold assignSlot
  rw [if_neg h1]
  match flat with
  | [] => rfl
  | [x] => simp at h2
  | x :: y :: t => rfl

lemma assignSlot_isSome {flat : List α} {slotLen : ℕ}
    (h : flat.length = slotLen ∨ flat.length = 1) :
    (assignSlot flat slotLen).isSome := by
  unfold assignSlot
  by_cases he : flat.length = slotLen
  · rw [if_pos he]; rfl
  · rw [if_neg he]
    rcases h with h | h
    · exact absurd h he
    · obtain ⟨x, rfl⟩ := List.length_eq_one.mp h
      rfl

/-- When every flattened patch fits its buffer row exactly, `patchify`
succeeds and returns, for each image, the row-major grid of flattened
patches (cell `(i, j)` at sequence position `i * n_patches + j`). -/
lemma patchify_eq_some {images : List (Image α)} {n c h w P : ℕ}
    (hs : HasShape4 images n c h w) (hw : h = w) (hP : P ≠ 0)
    (hfit : c * (h / P * (h / P)) = h * w / P ^ 2) :
    patchify images h w P = some (images.map (fun image =>
      List.flatten ((List.range P).map (fun i =>
        (List.range P).map (fun j => patchSlice image (h / P) i j))))) := by
  unfold patchify
  rw [if_pos hw, if_neg hP]
  apply mapM_option_eq_some_of_map
  intro image himg
  have h3 := hs.2 image himg
  have hlen : ∀ i ∈ List.range P, ∀ j ∈ List.range P,
      (patchSlice image (h / P) i j).length = h * w / P ^ 2 := by
    intro i hi j hj
    rw [patchSlice_length h3 hw (List.mem_range.mp hi) (List.mem_range.mp hj)]
    exact hfit
  have inner : ∀ i ∈ List.range P,
      List.mapM (fun j => assignSlot (patchSlice image (h / P) i j)
          (h * w / P ^ 2)) (List.range P) =
        some ((List.range P).map (fun j => patchSlice image (h / P) i j)) := by
    intro i hi
    apply mapM_option_eq_some_of_map
    intro j hj
    unfold assignSlot
    rw [if_pos (hlen i hi j hj)]
  rw [mapM_option_eq_some_of_map inner]
  rfl

/-- `patchify` succeeds whenever every flattened patch either fits its
buffer row or is a single element (broadcast assignment). -/
lemma patchify_isSome {images : List (Image α)} {n c h w P : ℕ}
    (hs : HasShape4 images n c h w) (hw : h = w) (hP : P ≠ 0)
    (hok : c * (h / P * (h / P)) = h * w / P ^ 2 ∨
      c * (h / P * (h / P)) = 1) :
    (patchify images h w P).isSome := by
  unfold patchify
  rw [if_pos hw, if_neg hP]
  apply mapM_option_isSome
  intro image himg
  have h3 := hs.2 image himg
  have hmap : ∀ o : Option (List (List (List α))),
      o.isSome → (Option.map List.flatten o).isSome := by
    intro o ho
    cases o with
    | none => simp at ho
    | some x => rfl
  apply hmap
  apply mapM_option_isSome
  intro i hi
  apply mapM_option_isSome
  intro j hj
  apply assignSlot_isSome
  rw [patchSlice_length h3 hw (List.mem_range.mp hi) (List.mem_range.mp hj)]
  exact hok

/-- When the batch is nonempty and the flattened patch neither fits its
buffer row nor is a single element, the first assignment raises and
`patchify` fails. -/
lemma patchify_eq_none {images : List (Image α)} {n c h w P : ℕ}
    (hs : HasShape4 images n c h w) (hne : images ≠ []) (hw : h = w)
    (hP : P ≠ 0) (hmis : c * (h / P * (h / P)) ≠ h * w / P ^ 2)
    (hone : c * (h / P * (h / P)) ≠ 1) :
    patchify images h w P = none := by
  unfold patchify
  rw [if_pos hw, if_neg hP]
  obtain ⟨im0, rest, rfl⟩ : ∃ im0 rest, images = im0 :: rest := by
    cases images with
    | nil => exact absurd rfl hne
    | cons a t => exact ⟨a, t, rfl⟩
  have h3 := hs.2 im0 (by simp)
  have hPpos : 0 < P := Nat.pos_of_ne_zero hP
  have hfail : assignSlot (patchSlice im0 (h / P) 0 0) (h * w / P ^ 2) =
      none := by
    apply assignSlot_eq_none
    · rw [patchSlice_length h3 hw hPpos hPpos]
      exact hmis
    · rw [patchSlice_length h3 hw hPpos hPpos]
      exact hone
  have hinner : List.mapM (fun j => assignSlot (patchSlice im0 (h / P) 0 j)
      (h * w / P ^ 2)) (List.range P) = none :=
    mapM_option_eq_none (List.mem_range.mpr hPpos) hfail
  have houter : (List.mapM (fun i =>
      List.mapM (fun j => assignSlot (patchSlice im0 (h / P) i j)
        (h * w / P ^ 2)) (List.range P)) (List.range P)) = none :=
    mapM_option_eq_none (List.mem_range.mpr hPpos) hinner
  apply mapM_option_eq_none (List.mem_cons_self im0 rest)
  rw [houter]
  rfl

/-! ## Claim C1: patchify shape and content -/

/-- C1 counterexample: on a two-channel `(1, 2, 2, 2)` batch with
`n_patches = 1` the claim demands a `(1, 1, 8)` result, but the buffer row
has width `h*w/P² = 4` while the flattened patch has `c·(h/P)·(w/P) = 8`
elements, so the assignment raises and `patchify` fails. -/
theorem patchify_channel_counterexample :
    patchify ([[[[1, 2], [3, 4]], [[5, 6], [7, 8]]]] : List (Image ℕ))
      2 2 1 = none := by decide

lemma patchify_correct_aux {α : Type} (images : List (Image α))
    (n h w P : ℕ) (d : α) (hs : HasShape4 images n 1 h w) (hw : h = w)
    (hdvd : h % P = 0) (hP : 0 < P) :
    ∃ out, patchify images h w P = some out ∧
      HasShape3 out n (P ^ 2) (1 * (h / P) * (w / P)) ∧
      (∀ idx i j a r e, idx < n → i < P → j < P → a < 1 → r < h / P →
        e < w / P →
        ((out.getD idx []).getD (i * P + j) []).getD
            (a * (h / P * (w / P)) + (r * (w / P) + e)) d =
          (((images.getD idx []).getD a []).getD (i * (h / P) + r) []).getD
            (j * (w / P) + e) d) := by
  subst hw
  have hP2 : 0 < P ^ 2 := by positivity
  have hfit : 1 * (h / P * (h / P)) = h * h / P ^ 2 := by
    have hhp : h / P * P = h :=
      Nat.div_mul_cancel (Nat.dvd_of_mod_eq_zero hdvd)
    have hexp : h * h = h / P * (h / P) * P ^ 2 := by
      conv_lhs => rw [← hhp]
      ring
    rw [one_mul, hexp, Nat.mul_div_cancel _ hP2]
  refine ⟨_, patchify_eq_some hs rfl (Nat.pos_iff_ne_zero.mp hP) hfit,
    ?_, ?_⟩
  · obtain ⟨hlen4, hmem4⟩ := hs
    refine ⟨by simp [hlen4], ?_⟩
    intro s hsmem
    obtain ⟨image, himg, rfl⟩ := List.mem_map.mp hsmem
    have h3 := hmem4 image himg
    constructor
    · have hunif : ∀ x ∈ (List.range P).map (fun i => (List.range P).map
          (fun j => patchSlice image (h / P) i j)), x.length = P := by
        intro x hx
        obtain ⟨i', _, rfl⟩ := List.mem_map.mp hx
        simp
      rw [length_flatten_uniform hunif, List.length_map, List.length_range]
      ring
    · intro p hp
      obtain ⟨x, hx, hpx⟩ := List.mem_flatten.mp hp
      obtain ⟨i', hi', rfl⟩ := List.mem_map.mp hx
      obtain ⟨j', hj', rfl⟩ := List.mem_map.mp hpx
      rw [patchSlice_length h3 rfl (List.mem_range.mp hi')
        (List.mem_range.mp hj')]
      ring
  · obtain ⟨hlen4, hmem4⟩ := hs
    intro idx i j a r e hidx hi hj ha hr he
    have hidx' : idx < images.length := by omega
    rw [getD_map _ images idx hidx' [] []]
    have h3 : HasShape3 (images.getD idx []) 1 h h :=
      hmem4 _ (getD_mem hidx' [])
    have hunif : ∀ x ∈ (List.range P).map (fun i' => (List.range P).map
        (fun j' => patchSlice (images.getD idx []) (h / P) i' j')),
        x.length = P := by
      intro x hx
      obtain ⟨i', _, rfl⟩ := List.mem_map.mp hx
      simp
    rw [getD_flatten_uniform hunif i j (by simpa using hi) hj []]
    rw [getD_map _ _ i (by simpa using hi) [] 0]
    rw [getD_eq_getElem (List.range P) 0 i (by simpa using hi),
      List.getElem_range]
    rw [getD_map _ _ j (by simpa using hj) [] 0]
    rw [getD_eq_getElem (List.range P) 0 j (by simpa using hj),
      List.getElem_range]
    have hrow : i * (h / P) + h / P ≤ h := slice_bound hi
    have hcol : j * (h / P) + h / P ≤ h := slice_bound hj
    have hgs := patchGrid_shape h3 hrow hcol
    unfold patchSlice
    rw [getD_flatten_flatten hgs ha hr he d]
    exact patchGrid_getD h3 ha hr he hrow hcol d

/-- C1 (amended to single-channel batches): for every batch of shape
`(N, 1, H, W)` with `H = W` and `H` divisible by the patch-grid size `P`,
`patchify` returns a tensor of shape `(N, P², 1·(H/P)·(W/P))` in which, for
image `idx` and grid cell `(i, j)`, sequence position `i·P + j` holds the
sub-block of rows `[i·s, (i+1)·s)` and columns `[j·s, (j+1)·s)` with
`s = H/P`, flattened in channel-major, row-major, column-minor order. -/
theorem patchify_correct {α : Type} (images : List (Image α))
    (n h w P : ℕ) (d : α) (hs : HasShape4 images n 1 h w) (hw : h = w)
    (hdvd : h % P = 0) (hP : 0 < P) :
    ∃ out, patchify images h w P = some out ∧
      HasShape3 out n (P ^ 2) (1 * (h / P) * (w / P)) ∧
      (∀ idx i j a r e, idx < n → i < P → j < P → a < 1 → r < h / P →
        e < w / P →
        ((out.getD idx []).getD (i * P + j) []).getD
            (a * (h / P * (w / P)) + (r * (w / P) + e)) d =
          (((images.getD idx []).getD a []).getD (i * (h / P) + r) []).getD
            (j * (w / P) + e) d) :=
  patchify_correct_aux images n h w P d hs hw hdvd hP

/-- Witness for `patchify_correct` at the concrete batch `[[[[5]]]]`. -/
theorem patchify_correct_witness :
    ∃ out, patchify ([[[[5]]]] : List (Image ℕ)) 1 1 1 = some out ∧
      HasShape3 out 1 (1 ^ 2) (1 * (1 / 1) * (1 / 1)) ∧
      (∀ idx i j a r e, idx < 1 → i < 1 → j < 1 → a < 1 → r < 1 / 1 →
        e < 1 / 1 →
        ((out.getD idx []).getD (i * 1 + j) []).getD
            (a * (1 / 1 * (1 / 1)) + (r * (1 / 1) + e)) 0 =
          (((([[[[5]]]] : List (Image ℕ)).getD idx []).getD a []).getD
            (i * (1 / 1) + r) []).getD (j * (1 / 1) + e) 0) :=
  patchify_correct [[[[5]]]] 1 1 1 1 0 (by decide) rfl (by decide)
    (by decide)

/-! ## Claim C2: when patchify fails -/

/-- C2 counterexample: with `H = W = 9` and `n_patches = 8` the claim
demands failure (`9 % 8 ≠ 0`), but the sliced patches have one element
each and the buffer rows have width `81 / 64 = 1`, so every assignment
fits and `patchify` succeeds. -/
theorem patchify_nondivisible_counterexample :
    (patchify ([[(List.range 9).map (fun i =>
        (List.range 9).map (fun j => 9 * i + j))]] : List (Image ℕ))
      9 9 8).isSome = true := by decide

/-- C2 (amended): `patchify` fails exactly when the image is non-square,
or the patch count is zero (the buffer-width division raises), or the
batch is nonempty and the flattened patch length `c·(h/P)²` neither
equals the buffer width `h·w/P²` nor is `1` (the broadcastable case).
In particular every non-square input fails and single-channel inputs
with `H = W` divisible by `P ≥ 1` never fail, but `H % P ≠ 0` does not
always fail. -/
theorem patchify_failure_iff {α : Type} (images : List (Image α))
    (n c h w P : ℕ) (hs : HasShape4 images n c h w) :
    patchify images h w P = none ↔
      ¬(h = w ∧ P ≠ 0 ∧ (images = [] ∨
        c * (h / P * (h / P)) = h * w / P ^ 2 ∨
        c * (h / P * (h / P)) = 1)) := by
  have hiff : (patchify images h w P).isSome ↔
      (h = w ∧ P ≠ 0 ∧ (images = [] ∨
        c * (h / P * (h / P)) = h * w / P ^ 2 ∨
        c * (h / P * (h / P)) = 1)) := by
    constructor
    · intro hsome
      by_cases hw : h = w
      · by_cases hP : P = 0
        · exfalso
          unfold patchify at hsome
          rw [if_pos hw, if_pos hP] at hsome
          simp at hsome
        · refine ⟨hw, hP, ?_⟩
          by_cases hemp : images = []
          · exact Or.inl hemp
          · by_cases hfit : c * (h / P * (h / P)) = h * w / P ^ 2
            · exact Or.inr (Or.inl hfit)
            · by_cases hone : c * (h / P * (h / P)) = 1
              · exact Or.inr (Or.inr hone)
              · exfalso
                rw [patchify_eq_none hs hemp hw hP hfit hone] at hsome
                simp at hsome
      · exfalso
        unfold patchify at hsome
        rw [if_neg hw] at hsome
        simp at hsome
    · rintro ⟨hw, hP, hcase⟩
      rcases hcase with rfl | hok | hok
      · unfold patchify
        rw [if_pos hw, if_neg hP]
        rfl
      · exact patchify_isSome hs hw hP (Or.inl hok)
      · exact patchify_isSome hs hw hP (Or.inr hok)
  rw [← Option.not_isSome_iff_eq_none]
  exact not_congr hiff

/-- Witness for `patchify_failure_iff` at a concrete non-square input. -/
theorem patchify_failure_iff_witness :
    patchify ([] : List (Image ℕ)) 1 2 1 = none ↔
      ¬((1 : ℕ) = 2 ∧ (1 : ℕ) ≠ 0 ∧ (([] : List (Image ℕ)) = [] ∨
        0 * (1 / 1 * (1 / 1)) = 1 * 2 / 1 ^ 2 ∨
        0 * (1 / 1 * (1 / 1)) = 1)) :=
  patchify_failure_iff [] 0 0 1 2 1 (by decide)

/-! ## Positional embedding generator (`get_positional_embeddings`,
lines 149-154).  `result` is initialized to ones but every entry is
overwritten by the double loop, so the table is exactly the map below. -/

noncomputable def get_positional_embeddings (sequence_length d : ℕ) :
    List (List ℝ) :=
  (List.range sequence_length).map (fun (i : ℕ) =>
    (List.range d).map (fun (j : ℕ) =>
      if j % 2 = 0 then
        Real.sin ((i : ℝ) / (10000 : ℝ) ^ ((j : ℝ) / (d : ℝ)))
      else
        Real.cos ((i : ℝ) / (10000 : ℝ) ^ (((j : ℝ) - 1) / (d : ℝ)))))

/-- The spec's formula for entry `(pos, dim)` of the positional table:
`sin(pos / 10000^(dim/D))` for even `dim`, else
`cos(pos / 10000^((dim-1)/D))`. -/
noncomputable def posEmbedEntry (pos dim D : ℕ) : ℝ :=
  if dim % 2 = 0 then
    Real.sin ((pos : ℝ) / (10000 : ℝ) ^ ((dim : ℝ) / (D : ℝ)))
  else
    Real.cos ((pos : ℝ) / (10000 : ℝ) ^ (((dim : ℝ) - 1) / (D : ℝ)))

lemma get_positional_embeddings_shape (L D : ℕ) :
    HasShape2 (get_positional_embeddings L D) L D := by
  constructor
  · simp [get_positional_embeddings]
  · intro row hrow
    obtain ⟨i, _, rfl⟩ := List.mem_map.mp hrow
    simp

lemma get_positional_embeddings_getD {L D pos dim : ℕ}
    (hpos : pos < L) (hdim : dim < D) :
    ((get_positional_embeddings L D).getD pos []).getD dim 0 =
      posEmbedEntry pos dim D := by
  unfold get_positional_embeddings
  rw [getD_map _ _ pos (by simpa using hpos) [] 0,
    getD_eq_getElem (List.range L) 0 pos (by simpa using hpos),
    List.getElem_range,
    getD_map _ _ dim (by simpa using hdim) 0 0,
    getD_eq_getElem (List.range D) 0 dim (by simpa using hdim),
    List.getElem_range]
  rfl

/-- C7: the positional embedding generator returns an `(L, D)` matrix
whose entry `(pos, dim)` is `sin(pos / 10000^(dim/D))` for even `dim`
and `cos(pos / 10000^((dim-1)/D))` for odd `dim`; entry `(pos, 0)` is
`sin(pos)`; repeated calls with the same `(L, D)` coincide (the
generator is a pure function, so this is definitional); and the call
with `L = 1, D = 2` returns `[[0, 1]]`. -/
theorem get_positional_embeddings_spec (L D pos dim : ℕ)
    (hpos : pos < L) (hdim : dim < D) :
    HasShape2 (get_positional_embeddings L D) L D ∧
    ((get_positional_embeddings L D).getD pos []).getD dim 0 =
      posEmbedEntry pos dim D ∧
    ((get_positional_embeddings L D).getD pos []).getD 0 0 =
      Real.sin pos ∧
    get_positional_embeddings L D = get_positional_embeddings L D ∧
    get_positional_embeddings 1 2 = [[0, 1]] := by
  refine ⟨get_positional_embeddings_shape L D,
    get_positional_embeddings_getD hpos hdim, ?_, rfl, ?_⟩
  · rw [get_positional_embeddings_getD hpos (by omega)]
    unfold posEmbedEntry
    norm_num
  · unfold get_positional_embeddings
    norm_num [List.range_succ]

/-- Witness for `get_positional_embeddings_spec` at `L = 1`, `D = 2`,
`pos = 0`, `dim = 1`. -/
theorem get_positional_embeddings_spec_witness :
    HasShape2 (get_positional_embeddings 1 2) 1 2 ∧
    ((get_positional_embeddings 1 2).getD 0 []).getD 1 0 =
      posEmbedEntry 0 1 2 ∧
    ((get_positional_embeddings 1 2).getD 0 []).getD 0 0 =
      Real.sin 0 ∧
    get_positional_embeddings 1 2 = get_positional_embeddings 1 2 ∧
    get_positional_embeddings 1 2 = [[0, 1]] := by
  have h := get_positional_embeddings_spec 1 2 0 1 (by decide) (by decide)
  simpa using h

/-! ## Positional table pinning (C8, lines 110-113) -/

/-- A tensor together with its autograd flag (`requires_grad`). -/
structure TrackedParam where
  value : List (List ℝ)
  requiresGrad : Bool

/-- Lines 111-113: the positional table is computed once at
construction from `get_positional_embeddings(n_patches ** 2 + 1,
hidden_d)` and its gradient-tracking flag is set to `False`. -/
noncomputable def posEmbedInit (n_patches hidden_d : ℕ) : TrackedParam :=
  { value := get_positional_embeddings (n_patches ^ 2 + 1) hidden_d
    requiresGrad := false }

/-- Modelled from the spec: the optimizer is an external collaborator
that mutates parameters in place every optimization step, but a
parameter whose gradient-tracking flag is disabled is "excluded from
gradient updates".  A step therefore applies an arbitrary update `upd`
only when `requiresGrad` is set. -/
def gradStep (upd : List (List ℝ) → List (List ℝ)) (p : TrackedParam) :
    TrackedParam :=
  if p.requiresGrad then { p with value := upd p.value } else p

/-- C8: the positional table is a fixed `(P² + 1, hidden_d)` matrix
computed at construction with the gradient flag disabled, and any
sequence of optimization steps leaves it unchanged. -/
theorem pos_embed_pinned (n_patches hidden_d : ℕ) :
    (posEmbedInit n_patches hidden_d).requiresGrad = false ∧
    (posEmbedInit n_patches hidden_d).value =
      get_positional_embeddings (n_patches ^ 2 + 1) hidden_d ∧
    HasShape2 (posEmbedInit n_patches hidden_d).value
      (n_patches ^ 2 + 1) hidden_d ∧
    ∀ updates : List (List (List ℝ) → List (List ℝ)),
      updates.foldl (fun p u => gradStep u p)
          (posEmbedInit n_patches hidden_d) =
        posEmbedInit n_patches hidden_d := by
  refine ⟨rfl, rfl, get_positional_embeddings_shape _ _, ?_⟩
  intro updates
  induction updates with
  | nil => rfl
  | cons u t ih =>
    have hstep : gradStep u (posEmbedInit n_patches hidden_d) =
        posEmbedInit n_patches hidden_d := by
      unfold gradStep posEmbedInit
      simp
    simpa [hstep] using ih

/-- Witness for `pos_embed_pinned` at `n_patches = 7`, `hidden_d = 8`
(the repository's configuration). -/
theorem pos_embed_pinned_witness :
    (posEmbedInit 7 8).requiresGrad = false ∧
    (posEmbedInit 7 8).value = get_positional_embeddings (7 ^ 2 + 1) 8 ∧
    HasShape2 (posEmbedInit 7 8).value (7 ^ 2 + 1) 8 ∧
    ∀ updates : List (List (List ℝ) → List (List ℝ)),
      updates.foldl (fun p u => gradStep u p) (posEmbedInit 7 8) =
        posEmbedInit 7 8 :=
  pos_embed_pinned 7 8

/-! ## Tensor operations for the network layers -/

/-- A vector of reals. -/
abbrev Vec := List ℝ

/-- A matrix of reals, as a list of rows. -/
abbrev Mat := List (List ℝ)

noncomputable def dot (a b : Vec) : ℝ := (List.zipWith (fun x y => x * y) a b).sum

/-- Parameters of an `nn.Linear(din, dout)` module: `weight` has shape
`(dout, din)` and `bias` has length `dout`. -/
structure LinearParams where
  weight : Mat
  bias : Vec

abbrev LinearParams.WF (p : LinearParams) (din dout : ℕ) : Prop :=
  HasShape2 p.weight dout din ∧ p.bias.length = dout

/-- `nn.Linear` applied to one vector: `y = W x + b`. -/
noncomputable def applyLinear (p : LinearParams) (x : Vec) : Vec :=
  List.zipWith (fun wrow b => dot wrow x + b) p.weight p.bias

/-- `nn.Linear` applied along the last axis of a matrix. -/
noncomputable def applyLinearMat (p : LinearParams) (m : Mat) : Mat :=
  m.map (applyLinear p)

/-- `A @ B.T`. -/
noncomputable def matMulT (A B : Mat) : Mat :=
  A.map (fun ar => B.map (fun br => dot ar br))

def width (m : Mat) : ℕ := (m.headD []).length

/-- `A @ B`, reading columns of `B`. -/
noncomputable def matMul (A B : Mat) : Mat :=
  A.map (fun ar => (List.range (width B)).map (fun j =>
    dot ar (B.map (fun br => br.getD j 0))))

/-- Elementwise division of a matrix by a scalar. -/
noncomputable def scaleDiv (A : Mat) (c : ℝ) : Mat :=
  A.map (fun r => r.map (fun x => x / c))

/-- `nn.Softmax(dim=-1)` on one row. -/
noncomputable def softmaxRow (v : Vec) : Vec :=
  v.map (fun x => Real.exp x / (v.map Real.exp).sum)

/-- `nn.Softmax(dim=-1)` on a matrix (softmax of every row). -/
noncomputable def softmaxMat (A : Mat) : Mat := A.map softmaxRow

noncomputable def vecAdd (a b : Vec) : Vec := List.zipWith (fun x y => x + y) a b

noncomputable def matAdd (A B : Mat) : Mat := List.zipWith vecAdd A B

/-- `torch.hstack` on a list of matrices of equal height: rowwise
concatenation. -/
def hstack : List Mat → Mat
  | [] => []
  | m :: rest =>
      rest.foldl (fun acc m2 => List.zipWith (fun a b => a ++ b) acc m2) m

/-! ## Shape and entry lemmas for the tensor operations -/

lemma getD_zipWith {f : α → β → γ} {a : List α} {b : List β} {i : ℕ}
    (ha : i < a.length) (hb : i < b.length) (da : α) (db : β) (d : γ) :
    (List.zipWith f a b).getD i d = f (a.getD i da) (b.getD i db) := by
  rw [getD_eq_getElem _ _ _ (by simp [List.length_zipWith]; omega),
    List.getElem_zipWith, getD_eq_getElem _ _ _ ha,
    getD_eq_getElem _ _ _ hb]

lemma applyLinear_length {p : LinearParams} {din dout : ℕ}
    (h : p.WF din dout) (x : Vec) : (applyLinear p x).length = dout := by
  unfold applyLinear
  rw [List.length_zipWith, h.1.1, h.2]
  simp

lemma applyLinear_getD {p : LinearParams} {din dout : ℕ}
    (h : p.WF din dout) (x : Vec) {o : ℕ} (ho : o < dout) :
    (applyLinear p x).getD o 0 =
      dot (p.weight.getD o []) x + p.bias.getD o 0 := by
  unfold applyLinear
  rw [getD_zipWith (by omega : o < p.weight.length)
    (by omega : o < p.bias.length) [] 0 0]

lemma applyLinearMat_shape {p : LinearParams} {din dout : ℕ}
    (h : p.WF din dout) {m : Mat} {L : ℕ} (hm : m.length = L) :
    HasShape2 (applyLinearMat p m) L dout := by
  refine ⟨by simp [applyLinearMat, hm], ?_⟩
  intro row hrow
  obtain ⟨x, _, rfl⟩ := List.mem_map.mp hrow
  exact applyLinear_length h x

lemma applyLinearMat_getD {p : LinearParams} {m : Mat} {i : ℕ}
    (hi : i < m.length) :
    (applyLinearMat p m).getD i [] = applyLinear p (m.getD i []) :=
  getD_map _ m i hi [] []

lemma matMulT_shape (A B : Mat) :
    HasShape2 (matMulT A B) A.length B.length := by
  refine ⟨by simp [matMulT], ?_⟩
  intro row hrow
  obtain ⟨ar, _, rfl⟩ := List.mem_map.mp hrow
  simp

lemma matMulT_getD (A B : Mat) {i j : ℕ} (hi : i < A.length)
    (hj : j < B.length) :
    ((matMulT A B).getD i []).getD j 0 = dot (A.getD i []) (B.getD j []) := by
  unfold matMulT
  rw [getD_map _ A i hi [] [], getD_map _ B j hj 0 []]

lemma matMul_shape (A B : Mat) :
    HasShape2 (matMul A B) A.length (width B) := by
  refine ⟨by simp [matMul], ?_⟩
  intro row hrow
  obtain ⟨ar, _, rfl⟩ := List.mem_map.mp hrow
  simp

lemma matMul_getD (A B : Mat) {i j : ℕ} (hi : i < A.length)
    (hj : j < width B) :
    ((matMul A B).getD i []).getD j 0 =
      dot (A.getD i []) (B.map (fun br => br.getD j 0)) := by
  unfold matMul
  rw [getD_map _ A i hi [] []]
  rw [getD_map _ _ j (by simpa using hj) 0 0,
    getD_eq_getElem (List.range (width B)) 0 j (by simpa using hj),
    List.getElem_range]

lemma scaleDiv_shape {A : Mat} {L d : ℕ} (hA : HasShape2 A L d) (c : ℝ) :
    HasShape2 (scaleDiv A c) L d := by
  refine ⟨by simp [scaleDiv, hA.1], ?_⟩
  intro row hrow
  obtain ⟨r, hr, rfl⟩ := List.mem_map.mp hrow
  simp [hA.2 r hr]

lemma scaleDiv_getD {A : Mat} {i : ℕ} (hi : i < A.length) (c : ℝ) :
    (scaleDiv A c).getD i [] = (A.getD i []).map (fun x => x / c) :=
  getD_map _ A i hi [] []

lemma softmaxRow_length (v : Vec) : (softmaxRow v).length = v.length := by
  simp [softmaxRow]

lemma softmaxMat_shape {A : Mat} {L d : ℕ} (hA : HasShape2 A L d) :
    HasShape2 (softmaxMat A) L d := by
  refine ⟨by simp [softmaxMat, hA.1], ?_⟩
  intro row hrow
  obtain ⟨r, hr, rfl⟩ := List.mem_map.mp hrow
  rw [softmaxRow_length]
  exact hA.2 r hr

lemma softmaxMat_getD {A : Mat} {i : ℕ} (hi : i < A.length) :
    (softmaxMat A).getD i [] = softmaxRow (A.getD i []) :=
  getD_map _ A i hi [] []

lemma vecAdd_length {a b : Vec} (h : a.length = b.length) :
    (vecAdd a b).length = a.length := by
  simp [vecAdd, h]

lemma matAdd_getD {A B : Mat} {i : ℕ} (hiA : i < A.length)
    (hiB : i < B.length) :
    (matAdd A B).getD i [] = vecAdd (A.getD i []) (B.getD i []) :=
  getD_zipWith hiA hiB [] [] []

lemma matAdd_shape {A B : Mat} {L d : ℕ} (hA : HasShape2 A L d)
    (hB : HasShape2 B L d) : HasShape2 (matAdd A B) L d := by
  have hlen : (matAdd A B).length = L := by simp [matAdd, hA.1, hB.1]
  refine ⟨hlen, ?_⟩
  intro row hrow
  obtain ⟨i, hi, hrw⟩ := List.mem_iff_getElem.mp hrow
  have e1 := hA.1
  have e2 := hB.1
  have hiA : i < A.length := by omega
  have hiB : i < B.length := by omega
  have hrow' : row = vecAdd (A.getD i []) (B.getD i []) := by
    rw [← hrw, ← getD_eq_getElem _ [] i hi]
    exact matAdd_getD hiA hiB
  have hAr : (A.getD i []).length = d := hA.2 _ (getD_mem hiA [])
  have hBr : (B.getD i []).length = d := hB.2 _ (getD_mem hiB [])
  rw [hrow', vecAdd_length (by rw [hAr, hBr])]
  exact hAr

lemma headD_eq_getD (l : List α) (d : α) : l.headD d = l.getD 0 d := by
  cases l <;> rfl

lemma width_eq {m : Mat} {L d : ℕ} (hm : HasShape2 m L d) (hL : L ≠ 0) :
    width m = d := by
  unfold width
  have h0 : 0 < m.length := by omega
  rw [headD_eq_getD]
  exact hm.2 _ (getD_mem h0 [])

lemma foldl_zipapp_shape {ms : List Mat} {L dh : ℕ} :
    ∀ {acc : Mat} {w0 : ℕ}, HasShape2 acc L w0 →
      (∀ m ∈ ms, HasShape2 m L dh) →
      HasShape2 (ms.foldl (fun a m2 =>
        List.zipWith (fun r s => r ++ s) a m2) acc) L (w0 + ms.length * dh) := by
  induction ms with
  | nil =>
    intro acc w0 hacc _
    simpa using hacc
  | cons m t ih =>
    intro acc w0 hacc hms
    have hm := hms m (by simp)
    have hacc2 : HasShape2 (List.zipWith (fun r s => r ++ s) acc m) L
        (w0 + dh) := by
      constructor
      · simp [List.length_zipWith, hacc.1, hm.1]
      · intro row hrow
        obtain ⟨i, hi, hrw⟩ := List.mem_iff_getElem.mp hrow
        have e1 := hacc.1
        have e2 := hm.1
        have hiA : i < acc.length := by
          simp only [List.length_zipWith] at hi
          omega
        have hiB : i < m.length := by
          simp only [List.length_zipWith] at hi
          omega
        rw [← hrw, List.getElem_zipWith, List.length_append,
          hacc.2 _ (List.getElem_mem hiA), hm.2 _ (List.getElem_mem hiB)]
    have harith : w0 + (m :: t).length * dh = (w0 + dh) + t.length * dh := by
      simp only [List.length_cons]
      ring
    rw [List.foldl_cons, harith]
    exact ih hacc2 (fun x hx => hms x (by simp [hx]))

lemma hstack_shape {ms : List Mat} {L dh : ℕ}
    (hms : ∀ m ∈ ms, HasShape2 m L dh) (hne : ms ≠ []) :
    HasShape2 (hstack ms) L (ms.length * dh) := by
  match ms, hne with
  | m :: t, _ =>
    have h0 := hms m (by simp)
    have := foldl_zipapp_shape h0
      (fun x hx => hms x (List.mem_cons_of_mem m hx))
    have harith : dh + t.length * dh = (m :: t).length * dh := by
      simp only [List.length_cons]
      ring
    rw [← harith]
    exact this

lemma foldl_zipapp_getD {ms : List Mat} {L : ℕ} :
    ∀ {acc : Mat}, acc.length = L → (∀ m ∈ ms, m.length = L) →
      ∀ {l : ℕ}, l < L →
      (ms.foldl (fun a m2 =>
        List.zipWith (fun r s => r ++ s) a m2) acc).getD l [] =
        acc.getD l [] ++ List.flatten (ms.map (fun m => m.getD l [])) := by
  induction ms with
  | nil =>
    intro acc _ _ l _
    simp
  | cons m t ih =>
    intro acc hacc hms l hl
    have hm : m.length = L := hms m (by simp)
    have hacc2 : (List.zipWith (fun r s => r ++ s) acc m).length = L := by
      simp [List.length_zipWith, hacc, hm]
    rw [List.foldl_cons, ih hacc2 (fun x hx => hms x (by simp [hx])) hl,
      getD_zipWith (by omega) (by omega) [] [] []]
    simp

lemma hstack_getD {ms : List Mat} {L : ℕ} (hms : ∀ m ∈ ms, m.length = L)
    {l : ℕ} (hl : l < L) :
    (hstack ms).getD l [] = List.flatten (ms.map (fun m => m.getD l [])) := by
  match ms with
  | [] => simp [hstack]
  | m :: t =>
    unfold hstack
    rw [foldl_zipapp_getD (hms m (by simp))
      (fun x hx => hms x (by simp [hx])) hl]
    simp

/-! ## Multi-head self-attention (`MyMSA`, lines 32-64) -/

/-- Parameters of `MyMSA`: per-head Q/K/V linear modules and the stored
head count and head dimension. -/
structure MSAParams where
  n_heads : ℕ
  d_head : ℕ
  q_mappings : List LinearParams
  k_mappings : List LinearParams
  v_mappings : List LinearParams

/-- What `MyMSA.__init__(d, n_heads)` establishes: a nonzero head count
dividing `d` exactly (`d = d_head * n_heads`), and `n_heads` modules per
list, each mapping `d_head → d_head`. -/
abbrev MSAWF (p : MSAParams) (d : ℕ) : Prop :=
  p.n_heads ≠ 0 ∧ p.d_head * p.n_heads = d ∧
  p.q_mappings.length = p.n_heads ∧ p.k_mappings.length = p.n_heads ∧
  p.v_mappings.length = p.n_heads ∧
  (∀ lp ∈ p.q_mappings, lp.WF p.d_head p.d_head) ∧
  (∀ lp ∈ p.k_mappings, lp.WF p.d_head p.d_head) ∧
  (∀ lp ∈ p.v_mappings, lp.WF p.d_head p.d_head)

/-- `sequence[:, head * d_head : (head + 1) * d_head]` (line 59). -/
def headSlice (dh head : ℕ) (sequence : Mat) : Mat :=
  sequence.map (fun row => (row.drop (head * dh)).take dh)

/-- One head's computation in `MyMSA.forward` (lines 55-62): apply the
head's Q/K/V projections to the slice, take
`softmax(q @ k.T / d_head ** 0.5)`, multiply by `v`. -/
noncomputable def headAttnOut (qp kp vp : LinearParams) (dh : ℕ)
    (seq : Mat) : Mat :=
  matMul (softmaxMat (scaleDiv
      (matMulT (applyLinearMat qp seq) (applyLinearMat kp seq))
      (Real.sqrt (dh : ℝ))))
    (applyLinearMat vp seq)

/-- `MyMSA.forward` (lines 47-64): per sequence, per head, slice and
attend, `torch.hstack` the head outputs, and re-stack the per-sequence
results into a batch. -/
noncomputable def msaForward (p : MSAParams) (sequences : List Mat) :
    List Mat :=
  sequences.map (fun sequence =>
    hstack ((List.range p.n_heads).map (fun head =>
      headAttnOut (p.q_mappings.getD head ⟨[], []⟩)
        (p.k_mappings.getD head ⟨[], []⟩)
        (p.v_mappings.getD head ⟨[], []⟩) p.d_head
        (headSlice p.d_head head sequence))))

lemma headSlice_shape {s : Mat} {L d : ℕ} (hs : HasShape2 s L d)
    {dh head : ℕ} (hb : head * dh + dh ≤ d) :
    HasShape2 (headSlice dh head s) L dh := by
  refine ⟨by simp [headSlice, hs.1], ?_⟩
  intro row hrow
  obtain ⟨r, hr, rfl⟩ := List.mem_map.mp hrow
  have hrl := hs.2 r hr
  simp only [List.length_take, List.length_drop, hrl]
  omega

lemma headAttnOut_shape {qp kp vp : LinearParams} {dh L : ℕ}
    (hq : qp.WF dh dh) (hk : kp.WF dh dh) (hv : vp.WF dh dh)
    {seq : Mat} (hseq : seq.length = L) :
    HasShape2 (headAttnOut qp kp vp dh seq) L dh := by
  have hvs : HasShape2 (applyLinearMat vp seq) L dh :=
    applyLinearMat_shape hv hseq
  have hA : (softmaxMat (scaleDiv
      (matMulT (applyLinearMat qp seq) (applyLinearMat kp seq))
      (Real.sqrt (dh : ℝ)))).length = L := by
    simp [softmaxMat, scaleDiv, matMulT, applyLinearMat, hseq]
  constructor
  · unfold headAttnOut
    rw [(matMul_shape _ _).1, hA]
  · intro row hrow
    unfold headAttnOut matMul at hrow
    obtain ⟨ar, harmem, rfl⟩ := List.mem_map.mp hrow
    have hApos : 0 < L := by
      have hpos := List.length_pos.mpr (List.ne_nil_of_mem harmem)
      omega
    have hwv : width (applyLinearMat vp seq) = dh :=
      width_eq hvs (by omega)
    simp [hwv]

lemma head_slice_bound {p : MSAParams} {d : ℕ} (hwf : MSAWF p d)
    {head : ℕ} (hhead : head < p.n_heads) :
    head * p.d_head + p.d_head ≤ d := by
  obtain ⟨hh, hd, _⟩ := hwf
  have hstep : (head + 1) * p.d_head ≤ p.n_heads * p.d_head :=
    Nat.mul_le_mul_right _ (by omega)
  calc head * p.d_head + p.d_head = (head + 1) * p.d_head := by ring
    _ ≤ p.n_heads * p.d_head := hstep
    _ = d := by rw [← hd]; ring

lemma msa_heads_shape {p : MSAParams} {d : ℕ} (hwf : MSAWF p d)
    {x : Mat} {L : ℕ} (hxs : HasShape2 x L d) :
    ∀ m ∈ (List.range p.n_heads).map (fun head =>
      headAttnOut (p.q_mappings.getD head ⟨[], []⟩)
        (p.k_mappings.getD head ⟨[], []⟩)
        (p.v_mappings.getD head ⟨[], []⟩) p.d_head
        (headSlice p.d_head head x)), HasShape2 m L p.d_head := by
  intro m hm
  obtain ⟨head, hheadmem, rfl⟩ := List.mem_map.mp hm
  have hhead := List.mem_range.mp hheadmem
  obtain ⟨hh, hd, hql, hkl, hvl, hqw, hkw, hvw⟩ := hwf
  have hsl := headSlice_shape hxs
    (head_slice_bound ⟨hh, hd, hql, hkl, hvl, hqw, hkw, hvw⟩ hhead)
  exact headAttnOut_shape
    (hqw _ (getD_mem (by omega) _))
    (hkw _ (getD_mem (by omega) _))
    (hvw _ (getD_mem (by omega) _)) hsl.1

lemma msaForward_shape {p : MSAParams} {d : ℕ} (hwf : MSAWF p d)
    {xs : List Mat} {L : ℕ} (hx : ∀ s ∈ xs, HasShape2 s L d) :
    (msaForward p xs).length = xs.length ∧
      ∀ s ∈ msaForward p xs, HasShape2 s L d := by
  refine ⟨by simp [msaForward], ?_⟩
  intro s hsmem
  obtain ⟨x, hxmem, rfl⟩ := List.mem_map.mp hsmem
  have hxs := hx x hxmem
  have hper := msa_heads_shape hwf hxs
  have hne : (List.range p.n_heads).map (fun head =>
      headAttnOut (p.q_mappings.getD head ⟨[], []⟩)
        (p.k_mappings.getD head ⟨[], []⟩)
        (p.v_mappings.getD head ⟨[], []⟩) p.d_head
        (headSlice p.d_head head x)) ≠ [] := by
    simp only [ne_eq, List.map_eq_nil_iff, List.range_eq_nil]
    exact hwf.1
  have hshape := hstack_shape hper hne
  rw [List.length_map, List.length_range] at hshape
  rw [show p.n_heads * p.d_head = d from by rw [← hwf.2.1]; ring] at hshape
  exact hshape

/-- The spec's attention weights for query position `l`: softmax, along
the key axis, of the scaled dot-product scores `q_l · k_m / sqrt d_head`
over all key positions `m`. -/
noncomputable def specAttnRow (q k : Mat) (dh l : ℕ) : Vec :=
  softmaxRow (k.map (fun krow => dot (q.getD l []) krow / Real.sqrt (dh : ℝ)))

lemma headAttnOut_getD {qp kp vp : LinearParams} {dh L : ℕ}
    (hv : vp.WF dh dh) {seq : Mat} (hseq : seq.length = L)
    {l t : ℕ} (hl : l < L) (ht : t < dh) :
    ((headAttnOut qp kp vp dh seq).getD l []).getD t 0 =
      dot (specAttnRow (applyLinearMat qp seq) (applyLinearMat kp seq) dh l)
        ((applyLinearMat vp seq).map (fun vr => vr.getD t 0)) := by
  have hvs : HasShape2 (applyLinearMat vp seq) L dh :=
    applyLinearMat_shape hv hseq
  have hA : (softmaxMat (scaleDiv
      (matMulT (applyLinearMat qp seq) (applyLinearMat kp seq))
      (Real.sqrt (dh : ℝ)))).length = L := by
    simp [softmaxMat, scaleDiv, matMulT, applyLinearMat, hseq]
  have hwv : width (applyLinearMat vp seq) = dh := width_eq hvs (by omega)
  have hmtl : (matMulT (applyLinearMat qp seq)
      (applyLinearMat kp seq)).length = L := by
    simp [matMulT, applyLinearMat, hseq]
  unfold headAttnOut
  rw [matMul_getD _ _ (by omega) (by omega),
    softmaxMat_getD (by simp [scaleDiv]; omega),
    scaleDiv_getD (by omega),
    show (matMulT (applyLinearMat qp seq) (applyLinearMat kp seq)).getD l []
        = (applyLinearMat kp seq).map
            (fun br => dot ((applyLinearMat qp seq).getD l []) br) from
      getD_map _ _ l (by simp [applyLinearMat, hseq]; omega) [] []]
  unfold specAttnRow
  rw [List.map_map]
  rfl

/-- C3: given well-formed head parameters (`hidden_d` divisible into
`n_heads` contiguous `d_head`-slices) and a batch of `(L, hidden_d)`
sequences, `MyMSA.forward` preserves the batch length and the `(L,
hidden_d)` shape, processes each sequence independently, and its entry
at sequence `si`, position `l`, feature `head * d_head + t` equals the
dot product of the softmax attention row (over all key positions) of
head `head` with the `t`-th column of that head's value projection. -/
theorem msa_forward_spec (p : MSAParams) (xs : List Mat) (L d : ℕ)
    (hwf : MSAWF p d) (hx : ∀ s ∈ xs, HasShape2 s L d) :
    ((msaForward p xs).length = xs.length ∧
      ∀ s ∈ msaForward p xs, HasShape2 s L d) ∧
    (∀ si, si < xs.length →
      (msaForward p xs).getD si [] =
        hstack ((List.range p.n_heads).map (fun head =>
          headAttnOut (p.q_mappings.getD head ⟨[], []⟩)
            (p.k_mappings.getD head ⟨[], []⟩)
            (p.v_mappings.getD head ⟨[], []⟩) p.d_head
            (headSlice p.d_head head (xs.getD si []))))) ∧
    (∀ si head l t, si < xs.length → head < p.n_heads → l < L →
      t < p.d_head →
      (((msaForward p xs).getD si []).getD l []).getD
          (head * p.d_head + t) 0 =
        dot (specAttnRow
            (applyLinearMat (p.q_mappings.getD head ⟨[], []⟩)
              (headSlice p.d_head head (xs.getD si [])))
            (applyLinearMat (p.k_mappings.getD head ⟨[], []⟩)
              (headSlice p.d_head head (xs.getD si []))) p.d_head l)
          ((applyLinearMat (p.v_mappings.getD head ⟨[], []⟩)
            (headSlice p.d_head head (xs.getD si []))).map
            (fun vr => vr.getD t 0))) := by
  refine ⟨msaForward_shape hwf hx, ?_, ?_⟩
  · intro si hsi
    exact getD_map _ xs si hsi [] []
  · intro si head l t hsi hhead hl ht
    rw [show (msaForward p xs).getD si [] =
        hstack ((List.range p.n_heads).map (fun head =>
          headAttnOut (p.q_mappings.getD head ⟨[], []⟩)
            (p.k_mappings.getD head ⟨[], []⟩)
            (p.v_mappings.getD head ⟨[], []⟩) p.d_head
            (headSlice p.d_head head (xs.getD si [])))) from
      getD_map _ xs si hsi [] []]
    have hxs : HasShape2 (xs.getD si []) L d := hx _ (getD_mem hsi [])
    have hper := msa_heads_shape hwf hxs
    rw [hstack_getD (fun m hm => (hper m hm).1) hl, List.map_map]
    have hunif : ∀ r ∈ (List.range p.n_heads).map
        ((fun m => m.getD l []) ∘ (fun head =>
          headAttnOut (p.q_mappings.getD head ⟨[], []⟩)
            (p.k_mappings.getD head ⟨[], []⟩)
            (p.v_mappings.getD head ⟨[], []⟩) p.d_head
            (headSlice p.d_head head (xs.getD si [])))),
        r.length = p.d_head := by
      intro r hr
      obtain ⟨hh, hhmem, rfl⟩ := List.mem_map.mp hr
      have hsh := hper _ (List.mem_map_of_mem _ hhmem)
      exact hsh.2 _ (getD_mem (by omega) [])
    rw [getD_flatten_uniform hunif head t (by simpa using hhead) ht 0,
      getD_map _ _ head (by simpa using hhead) [] 0,
      getD_eq_getElem (List.range p.n_heads) 0 head (by simpa using hhead),
      List.getElem_range]
    obtain ⟨hh, hd, hql, hkl, hvl, hqw, hkw, hvw⟩ := hwf
    have hslb := head_slice_bound ⟨hh, hd, hql, hkl, hvl, hqw, hkw, hvw⟩ hhead
    have hsl := headSlice_shape hxs hslb
    exact headAttnOut_getD (hvw _ (getD_mem (by omega) _)) hsl.1 hl ht

/-- Witness for `msa_forward_spec` on a one-head, one-token instance. -/
theorem msa_forward_spec_witness :
    ((msaForward ⟨1, 1, [⟨[[1]], [0]⟩], [⟨[[1]], [0]⟩], [⟨[[1]], [0]⟩]⟩
        [[[0]]]).length = [[[(0 : ℝ)]]].length ∧
      ∀ s ∈ msaForward ⟨1, 1, [⟨[[1]], [0]⟩], [⟨[[1]], [0]⟩], [⟨[[1]], [0]⟩]⟩
        [[[0]]], HasShape2 s 1 1) ∧
    (∀ si, si < [[[(0 : ℝ)]]].length →
      (msaForward ⟨1, 1, [⟨[[1]], [0]⟩], [⟨[[1]], [0]⟩], [⟨[[1]], [0]⟩]⟩
          [[[0]]]).getD si [] =
        hstack ((List.range (1 : ℕ)).map (fun head =>
          headAttnOut (([⟨[[1]], [0]⟩] : List LinearParams).getD head ⟨[], []⟩)
            (([⟨[[1]], [0]⟩] : List LinearParams).getD head ⟨[], []⟩)
            (([⟨[[1]], [0]⟩] : List LinearParams).getD head ⟨[], []⟩) 1
            (headSlice 1 head (([[[0]]] : List Mat).getD si []))))) ∧
    (∀ si head l t, si < [[[(0 : ℝ)]]].length → head < 1 → l < 1 → t < 1 →
      (((msaForward ⟨1, 1, [⟨[[1]], [0]⟩], [⟨[[1]], [0]⟩], [⟨[[1]], [0]⟩]⟩
          [[[0]]]).getD si []).getD l []).getD (head * 1 + t) 0 =
        dot (specAttnRow
            (applyLinearMat (([⟨[[1]], [0]⟩] : List LinearParams).getD head
              ⟨[], []⟩) (headSlice 1 head (([[[0]]] : List Mat).getD si [])))
            (applyLinearMat (([⟨[[1]], [0]⟩] : List LinearParams).getD head
              ⟨[], []⟩) (headSlice 1 head (([[[0]]] : List Mat).getD si [])))
            1 l)
          ((applyLinearMat (([⟨[[1]], [0]⟩] : List LinearParams).getD head
            ⟨[], []⟩) (headSlice 1 head (([[[0]]] : List Mat).getD si []))).map
            (fun vr => vr.getD t 0))) :=
  msa_forward_spec ⟨1, 1, [⟨[[1]], [0]⟩], [⟨[[1]], [0]⟩], [⟨[[1]], [0]⟩]⟩
    [[[0]]] 1 1 (by decide) (by decide)

/-! ## Transformer block (`MyVitBlock`, lines 66-84) -/

/-- Scale and shift of an `nn.LayerNorm(hidden_d)` module. -/
structure LayerNormParams where
  gamma : Vec
  beta : Vec

/-- `nn.LayerNorm` on one token vector: normalize over the feature axis
with the biased variance and the default `eps = 1e-5`, then apply the
learnable scale and shift. -/
noncomputable def layerNorm (p : LayerNormParams) (x : Vec) : Vec :=
  let mu := x.sum / (x.length : ℝ)
  let varx := (x.map (fun xi => (xi - mu) ^ 2)).sum / (x.length : ℝ)
  List.zipWith (fun gb xi =>
    gb.1 * ((xi - mu) / Real.sqrt (varx + 1e-5)) + gb.2)
    (p.gamma.zip p.beta) x

noncomputable def layerNormMat (p : LayerNormParams) (m : Mat) : Mat :=
  m.map (layerNorm p)

noncomputable def layerNormBatch (p : LayerNormParams)
    (xs : List Mat) : List Mat :=
  xs.map (layerNormMat p)

/-- The Gauss error function. -/
noncomputable def erf (x : ℝ) : ℝ :=
  2 / Real.sqrt Real.pi * ∫ t in (0 : ℝ)..x, Real.exp (-t ^ 2)

/-- `nn.GELU()` in its exact form: `0.5 * x * (1 + erf(x / sqrt 2))`. -/
noncomputable def gelu (x : ℝ) : ℝ := 0.5 * x * (1 + erf (x / Real.sqrt 2))

noncomputable def geluMat (m : Mat) : Mat := m.map (fun r => r.map gelu)

/-- Parameters of one `MyVitBlock`: two layer norms with independent
scale/bias, the attention module, and the two feed-forward linears. -/
structure BlockParams where
  norm1 : LayerNormParams
  mhsa : MSAParams
  norm2 : LayerNormParams
  mlp1 : LinearParams
  mlp2 : LinearParams

/-- The block's `nn.Sequential(Linear, GELU, Linear)` (lines 75-79). -/
noncomputable def mlpSeq (l1 l2 : LinearParams) (m : Mat) : Mat :=
  applyLinearMat l2 (geluMat (applyLinearMat l1 m))

/-- Elementwise addition of two batches of matrices. -/
noncomputable def addBatch (a b : List Mat) : List Mat :=
  List.zipWith matAdd a b

/-- `MyVitBlock.forward` (lines 81-84):
`out = x + mhsa(norm1(x)); out = out + mlp(norm2(out))`. -/
noncomputable def blockForward (p : BlockParams) (x : List Mat) :
    List Mat :=
  let out := addBatch x (msaForward p.mhsa (layerNormBatch p.norm1 x))
  addBatch out (out.map (fun s => mlpSeq p.mlp1 p.mlp2
    (layerNormMat p.norm2 s)))

/-- What `MyVitBlock.__init__(hidden_d, n_heads, mlp_ratio)` establishes,
with `dm = mlp_ratio * hidden_d` the hidden width of the feed-forward. -/
abbrev BlockWF (p : BlockParams) (d dm : ℕ) : Prop :=
  p.norm1.gamma.length = d ∧ p.norm1.beta.length = d ∧
  MSAWF p.mhsa d ∧
  p.norm2.gamma.length = d ∧ p.norm2.beta.length = d ∧
  p.mlp1.WF d dm ∧ p.mlp2.WF dm d

lemma layerNorm_length (p : LayerNormParams) (x : Vec) :
    (layerNorm p x).length =
      min (min p.gamma.length p.beta.length) x.length := by
  simp [layerNorm, List.length_zipWith]

lemma layerNormMat_shape {p : LayerNormParams} {m : Mat} {L d : ℕ}
    (hm : HasShape2 m L d) (hg : p.gamma.length = d)
    (hb : p.beta.length = d) : HasShape2 (layerNormMat p m) L d := by
  refine ⟨by simp [layerNormMat, hm.1], ?_⟩
  intro row hrow
  obtain ⟨r, hr, rfl⟩ := List.mem_map.mp hrow
  rw [layerNorm_length, hg, hb, hm.2 r hr]
  simp

lemma geluMat_shape {m : Mat} {L d : ℕ} (hm : HasShape2 m L d) :
    HasShape2 (geluMat m) L d := by
  refine ⟨by simp [geluMat, hm.1], ?_⟩
  intro row hrow
  obtain ⟨r, hr, rfl⟩ := List.mem_map.mp hrow
  simp [hm.2 r hr]

lemma mlpSeq_shape {l1 l2 : LinearParams} {d dm L : ℕ}
    (h1 : l1.WF d dm) (h2 : l2.WF dm d) {m : Mat} (hm : m.length = L) :
    HasShape2 (mlpSeq l1 l2 m) L d := by
  unfold mlpSeq
  exact applyLinearMat_shape h2
    (by rw [(geluMat_shape (applyLinearMat_shape h1 hm)).1])

lemma addBatch_shape {a b : List Mat} {n L d : ℕ}
    (hal : a.length = n) (hbl : b.length = n)
    (ha : ∀ m ∈ a, HasShape2 m L d) (hb : ∀ m ∈ b, HasShape2 m L d) :
    (addBatch a b).length = n ∧ ∀ m ∈ addBatch a b, HasShape2 m L d := by
  constructor
  · simp [addBatch, hal, hbl]
  · intro m hm
    obtain ⟨i, hi, hrw⟩ := List.mem_iff_getElem.mp hm
    have hia : i < a.length := by
      simp only [addBatch, List.length_zipWith] at hi
      omega
    have hib : i < b.length := by
      simp only [addBatch, List.length_zipWith] at hi
      omega
    have hmv : m = matAdd (a.getD i []) (b.getD i []) := by
      rw [← hrw, ← getD_eq_getElem _ [] i hi]
      exact getD_zipWith hia hib [] [] []
    rw [hmv]
    exact matAdd_shape (ha _ (getD_mem hia [])) (hb _ (getD_mem hib []))

lemma blockForward_shape {p : BlockParams} {d dm : ℕ}
    (hwf : BlockWF p d dm) {x : List Mat} {n L : ℕ} (hxl : x.length = n)
    (hx : ∀ s ∈ x, HasShape2 s L d) :
    (blockForward p x).length = n ∧
      ∀ s ∈ blockForward p x, HasShape2 s L d := by
  obtain ⟨hg1, hb1, hmsa, hg2, hb2, hm1, hm2⟩ := hwf
  have hln1 : (layerNormBatch p.norm1 x).length = n := by
    simp [layerNormBatch, layerNormMat, hxl]
  have hln1s : ∀ s ∈ layerNormBatch p.norm1 x, HasShape2 s L d := by
    intro s hs
    obtain ⟨s0, hs0, rfl⟩ := List.mem_map.mp hs
    exact layerNormMat_shape (hx s0 hs0) hg1 hb1
  have hmsas := msaForward_shape hmsa hln1s
  have hout := addBatch_shape hxl (by rw [hmsas.1, hln1]) hx hmsas.2
  have hmlp : ((addBatch x (msaForward p.mhsa (layerNormBatch p.norm1 x))).map
      (fun s => mlpSeq p.mlp1 p.mlp2 (layerNormMat p.norm2 s))).length =
      n := by
    rw [List.length_map, hout.1]
  have hmlps : ∀ s ∈ (addBatch x (msaForward p.mhsa
      (layerNormBatch p.norm1 x))).map
      (fun s => mlpSeq p.mlp1 p.mlp2 (layerNormMat p.norm2 s)),
      HasShape2 s L d := by
    intro s hs
    obtain ⟨s0, hs0, rfl⟩ := List.mem_map.mp hs
    have hsh := hout.2 s0 hs0
    exact mlpSeq_shape hm1 hm2
      (by rw [(layerNormMat_shape hsh hg2 hb2).1])
  exact addBatch_shape hout.1 hmlp hout.2 hmlps

/-- C4: the block computes exactly `x' = x + MHSA(LayerNorm1(x))`
followed by `out = x' + MLP(LayerNorm2(x'))`, where `MLP` is
`Linear(hidden_d → dm)` then GELU then `Linear(dm → hidden_d)` and the
two layer normalizations carry independent scale/bias (`norm1` and
`norm2` are separate parameter records applied before each sub-layer,
with residual additions around each); the output shape equals the input
shape. -/
theorem vit_block_spec (p : BlockParams) (x : List Mat) (n L d dm : ℕ)
    (hwf : BlockWF p d dm) (hxl : x.length = n)
    (hx : ∀ s ∈ x, HasShape2 s L d) :
    blockForward p x =
      addBatch (addBatch x (msaForward p.mhsa (layerNormBatch p.norm1 x)))
        ((addBatch x (msaForward p.mhsa (layerNormBatch p.norm1 x))).map
          (fun s => applyLinearMat p.mlp2 (geluMat (applyLinearMat p.mlp1
            (layerNormMat p.norm2 s))))) ∧
    ((blockForward p x).length = n ∧
      ∀ s ∈ blockForward p x, HasShape2 s L d) :=
  ⟨rfl, blockForward_shape hwf hxl hx⟩

/-- A concrete one-head, one-token block used by the witness below. -/
noncomputable def blockW : BlockParams :=
  ⟨⟨[1], [0]⟩, ⟨1, 1, [⟨[[1]], [0]⟩], [⟨[[1]], [0]⟩], [⟨[[1]], [0]⟩]⟩,
    ⟨[1], [0]⟩, ⟨[[1]], [0]⟩, ⟨[[1]], [0]⟩⟩

/-- Witness for `vit_block_spec` at a concrete block and input. -/
theorem vit_block_spec_witness :
    blockForward blockW [[[0]]] =
      addBatch (addBatch [[[0]]]
          (msaForward blockW.mhsa (layerNormBatch blockW.norm1 [[[0]]])))
        ((addBatch [[[0]]]
          (msaForward blockW.mhsa (layerNormBatch blockW.norm1 [[[0]]]))).map
          (fun s => applyLinearMat blockW.mlp2 (geluMat (applyLinearMat
            blockW.mlp1 (layerNormMat blockW.norm2 s))))) ∧
    ((blockForward blockW [[[0]]]).length = 1 ∧
      ∀ s ∈ blockForward blockW [[[0]]], HasShape2 s 1 1) :=
  vit_block_spec blockW [[[0]]] 1 1 1 1 (by decide) rfl (by decide)

/-! ## The ViT model (`Myvit`, lines 86-147) -/

/-- The state built by `Myvit.__init__`. -/
structure MyvitModel where
  chw : ℕ × ℕ × ℕ
  n_patches : ℕ
  hidden_d : ℕ
  linear_mapper : LinearParams
  class_token : Vec
  pos_embed : TrackedParam
  blocks : List BlockParams
  headMlp : LinearParams

/-- `Myvit.forward` (lines 124-147): patchify, linear tokenization,
class-token prepend (`torch.vstack`), positional-embedding addition (the
table is broadcast over the batch by `repeat(n, 1, 1)`), the transformer
blocks in order, the class-token extraction `out[:, 0]`, and the
classification head `nn.Sequential(Linear, Softmax)`.  The runtime
height and width read from `images.shape` are passed explicitly. -/
noncomputable def MyvitModel.forward (model : MyvitModel)
    (images : List (Image ℝ)) (h w : ℕ) : Option Mat :=
  (patchify images h w model.n_patches).map (fun patches =>
    let tokens := patches.map (applyLinearMat model.linear_mapper)
    let tokens2 := tokens.map (fun t => model.class_token :: t)
    let outp := tokens2.map (fun t => matAdd t model.pos_embed.value)
    let out := model.blocks.foldl (fun acc b => blockForward b acc) outp
    let cls := out.map (fun s => s.headD [])
    softmaxMat (applyLinearMat model.headMlp cls))

/-- C5: the forward pass is exactly the pipeline patchify → linear
embedding → class-token prepend → positional addition → blocks → index-0
extraction → classification head, in that order; in particular the class
token is prepended before the positional table is added: in the
pre-block batch, position 0 holds `class_token + pos_embed[0]` and
position `q + 1` holds the embedded patch `q` plus `pos_embed[q + 1]`. -/
theorem vit_forward_pipeline (model : MyvitModel)
    (images : List (Image ℝ)) (h w : ℕ) (patches : List Mat)
    (hp : patchify images h w model.n_patches = some patches)
    (hpos : HasShape2 model.pos_embed.value (model.n_patches ^ 2 + 1)
      model.hidden_d)
    (hpl : ∀ pm ∈ patches, pm.length = model.n_patches ^ 2) :
    MyvitModel.forward model images h w = some
      (softmaxMat (applyLinearMat model.headMlp
        ((model.blocks.foldl (fun acc b => blockForward b acc)
          ((patches.map (applyLinearMat model.linear_mapper)).map
            (fun t => matAdd (model.class_token :: t)
              model.pos_embed.value))).map (fun s => s.headD [])))) ∧
    (∀ i, i < patches.length →
      ((((patches.map (applyLinearMat model.linear_mapper)).map
          (fun t => matAdd (model.class_token :: t)
            model.pos_embed.value)).getD i []).getD 0 [] =
        vecAdd model.class_token (model.pos_embed.value.getD 0 []) ∧
      ∀ q, q < model.n_patches ^ 2 →
        (((patches.map (applyLinearMat model.linear_mapper)).map
          (fun t => matAdd (model.class_token :: t)
            model.pos_embed.value)).getD i []).getD (q + 1) [] =
          vecAdd (applyLinear model.linear_mapper
              ((patches.getD i []).getD q []))
            (model.pos_embed.value.getD (q + 1) []))) := by
  constructor
  · unfold MyvitModel.forward
    rw [hp]
    simp only [Option.map_some, List.map_map]
    rfl
  · intro i hi
    have hgd : ((patches.map (applyLinearMat model.linear_mapper)).map
        (fun t => matAdd (model.class_token :: t)
          model.pos_embed.value)).getD i [] =
        matAdd (model.class_token ::
            applyLinearMat model.linear_mapper (patches.getD i []))
          model.pos_embed.value := by
      rw [getD_map _ _ i (by simpa using hi) [] [],
        getD_map _ patches i hi [] []]
    have hplen : (applyLinearMat model.linear_mapper
        (patches.getD i [])).length = model.n_patches ^ 2 := by
      unfold applyLinearMat
      rw [List.length_map]
      exact hpl _ (getD_mem hi [])
    constructor
    · rw [hgd, matAdd_getD (by simp) (by rw [hpos.1]; omega)]
      rfl
    · intro q hq
      rw [hgd, matAdd_getD (by rw [List.length_cons, hplen]; omega)
        (by rw [hpos.1]; omega)]
      rw [List.getD_cons_succ,
        show (applyLinearMat model.linear_mapper
            (patches.getD i [])).getD q [] =
          applyLinear model.linear_mapper ((patches.getD i []).getD q [])
        from getD_map _ _ q
          (by rw [hpl _ (getD_mem hi [])]; omega) [] []]

/-- A concrete one-patch model used by witnesses below. -/
noncomputable def vitW : MyvitModel :=
  ⟨(1, 1, 1), 1, 1, ⟨[[1]], [0]⟩, [0], ⟨[[0], [0]], false⟩, [],
    ⟨[[1]], [0]⟩⟩

/-- Witness for `vit_forward_pipeline` at a concrete model and input. -/
theorem vit_forward_pipeline_witness :
    MyvitModel.forward vitW [[[[5]]]] 1 1 = some
      (softmaxMat (applyLinearMat vitW.headMlp
        ((vitW.blocks.foldl (fun acc b => blockForward b acc)
          (([[[(5 : ℝ)]]].map (applyLinearMat vitW.linear_mapper)).map
            (fun t => matAdd (vitW.class_token :: t)
              vitW.pos_embed.value))).map (fun s => s.headD [])))) ∧
    (∀ i, i < [[[(5 : ℝ)]]].length →
      (((([[[(5 : ℝ)]]].map (applyLinearMat vitW.linear_mapper)).map
          (fun t => matAdd (vitW.class_token :: t)
            vitW.pos_embed.value)).getD i []).getD 0 [] =
        vecAdd vitW.class_token (vitW.pos_embed.value.getD 0 []) ∧
      ∀ q, q < vitW.n_patches ^ 2 →
        ((([[[(5 : ℝ)]]].map (applyLinearMat vitW.linear_mapper)).map
          (fun t => matAdd (vitW.class_token :: t)
            vitW.pos_embed.value)).getD i []).getD (q + 1) [] =
          vecAdd (applyLinear vitW.linear_mapper
              (([[[(5 : ℝ)]]].getD i []).getD q []))
            (vitW.pos_embed.value.getD (q + 1) []))) :=
  vit_forward_pipeline vitW [[[[5]]]] 1 1 [[[5]]] rfl (by decide)
    (by decide)

/-! ## The softmax invariant and the output contract (C6) -/

lemma sum_map_div (l : List ℝ) (c : ℝ) :
    (l.map (fun x => x / c)).sum = l.sum / c := by
  induction l with
  | nil => simp
  | cons a t ih => simp [ih, add_div]

lemma softmaxRow_nonneg (v : Vec) : ∀ y ∈ softmaxRow v, 0 ≤ y := by
  intro y hy
  obtain ⟨xv, _, rfl⟩ := List.mem_map.mp hy
  apply div_nonneg (Real.exp_pos xv).le
  apply List.sum_nonneg
  intro z hz
  obtain ⟨u, _, rfl⟩ := List.mem_map.mp hz
  exact (Real.exp_pos u).le

lemma softmaxRow_sum {v : Vec} (hv : v ≠ []) : (softmaxRow v).sum = 1 := by
  have hpos : 0 < (v.map Real.exp).sum := by
    apply List.sum_pos
    · intro z hz
      obtain ⟨u, _, rfl⟩ := List.mem_map.mp hz
      exact Real.exp_pos u
    · simpa using hv
  unfold softmaxRow
  have hcomp : (v.map fun x => Real.exp x / (v.map Real.exp).sum) =
      (v.map Real.exp).map (fun y => y / (v.map Real.exp).sum) := by
    rw [List.map_map]
    rfl
  rw [hcomp, sum_map_div, div_self (ne_of_gt hpos)]

lemma foldl_blocks_shape {bs : List BlockParams} {d dm : ℕ}
    (hbs : ∀ b ∈ bs, BlockWF b d dm) :
    ∀ {xs : List Mat} {n L : ℕ}, xs.length = n →
      (∀ s ∈ xs, HasShape2 s L d) →
      (bs.foldl (fun acc b => blockForward b acc) xs).length = n ∧
        ∀ s ∈ bs.foldl (fun acc b => blockForward b acc) xs,
          HasShape2 s L d := by
  induction bs with
  | nil =>
    intro xs n L hl hsx
    exact ⟨hl, hsx⟩
  | cons b t ih =>
    intro xs n L hl hsx
    have h1 := blockForward_shape (hbs b (by simp)) hl hsx
    rw [List.foldl_cons]
    exact ih (fun x hx => hbs x (List.mem_cons_of_mem b hx)) h1.1 h1.2

/-- C6 (amended to single-channel inputs, with at least one output
class): for every input batch of shape `(N, 1, H, W)` with `H = W`
divisible by the patch count, and well-formed model parameters, the
forward pass returns a tensor of shape `(N, out_d)` in which every row
is non-negative and sums to 1 exactly (the softmax invariant over `ℝ`).
For two-channel inputs the forward pass fails inside `patchify`. -/
theorem vit_forward_distribution (model : MyvitModel)
    (images : List (Image ℝ)) (n h w out_d dm : ℕ)
    (hs : HasShape4 images n 1 h w) (hw : h = w)
    (hdvd : h % model.n_patches = 0) (hP : 0 < model.n_patches)
    (hct : model.class_token.length = model.hidden_d)
    (hpos : HasShape2 model.pos_embed.value (model.n_patches ^ 2 + 1)
      model.hidden_d)
    (hmap : model.linear_mapper.WF
      (1 * (h / model.n_patches) * (w / model.n_patches)) model.hidden_d)
    (hblocks : ∀ b ∈ model.blocks, BlockWF b model.hidden_d dm)
    (hhead : model.headMlp.WF model.hidden_d out_d) (hout : 0 < out_d) :
    ∃ ys, MyvitModel.forward model images h w = some ys ∧
      HasShape2 ys n out_d ∧
      ∀ row ∈ ys, (∀ xv ∈ row, 0 ≤ xv) ∧ row.sum = 1 := by
  obtain ⟨patches, hp, hpshape, _⟩ :=
    patchify_correct_aux images n h w model.n_patches 0 hs hw hdvd hP
  obtain ⟨hplen, hpmem⟩ := hpshape
  have htok : ∀ t ∈ patches.map (applyLinearMat model.linear_mapper),
      HasShape2 t (model.n_patches ^ 2) model.hidden_d := by
    intro t ht
    obtain ⟨pm, hpm, rfl⟩ := List.mem_map.mp ht
    exact applyLinearMat_shape hmap ((hpmem pm hpm).1)
  have houtp : ∀ s ∈ (patches.map (applyLinearMat model.linear_mapper)).map
      (fun t => matAdd (model.class_token :: t) model.pos_embed.value),
      HasShape2 s (model.n_patches ^ 2 + 1) model.hidden_d := by
    intro s hsmem
    obtain ⟨t, htm, rfl⟩ := List.mem_map.mp hsmem
    have htsh := htok t htm
    have hcons : HasShape2 (model.class_token :: t)
        (model.n_patches ^ 2 + 1) model.hidden_d := by
      constructor
      · simp [htsh.1]
      · intro row hrow
        rcases List.mem_cons.mp hrow with rfl | hrow'
        · exact hct
        · exact htsh.2 row hrow'
    exact matAdd_shape hcons hpos
  have houtpl : ((patches.map (applyLinearMat model.linear_mapper)).map
      (fun t => matAdd (model.class_token :: t)
        model.pos_embed.value)).length = n := by
    simp [hplen]
  have hfold := foldl_blocks_shape hblocks houtpl houtp
  have hclsl : ((model.blocks.foldl (fun acc b => blockForward b acc)
      ((patches.map (applyLinearMat model.linear_mapper)).map
        (fun t => matAdd (model.class_token :: t)
          model.pos_embed.value))).map (fun s => s.headD [])).length =
      n := by
    rw [List.length_map, hfold.1]
  have hlin := applyLinearMat_shape hhead hclsl
  refine ⟨softmaxMat (applyLinearMat model.headMlp
    ((model.blocks.foldl (fun acc b => blockForward b acc)
      ((patches.map (applyLinearMat model.linear_mapper)).map
        (fun t => matAdd (model.class_token :: t)
          model.pos_embed.value))).map (fun s => s.headD []))),
    ?_, softmaxMat_shape hlin, ?_⟩
  · unfold MyvitModel.forward
    rw [hp]
    simp only [Option.map_some, List.map_map]
    rfl
  · intro row hrow
    obtain ⟨r, hr, rfl⟩ := List.mem_map.mp hrow
    have hrl : r.length = out_d := hlin.2 r hr
    refine ⟨softmaxRow_nonneg r, softmaxRow_sum ?_⟩
    intro hnil
    rw [hnil] at hrl
    simp at hrl
    omega

/-- C6 counterexample: a two-channel batch satisfying the input contract
(shape `(1, 2, 2, 2)`, `H = W = 2` divisible by `n_patches = 1`) makes
the forward pass fail inside `patchify` (buffer row width `4` versus
flattened patch length `8`) instead of returning a probability row. -/
theorem vit_forward_channel_counterexample :
    MyvitModel.forward
      ⟨(2, 2, 2), 1, 1, ⟨[[1]], [0]⟩, [0], ⟨[[0], [0]], false⟩, [],
        ⟨[[1]], [0]⟩⟩
      [[[[1, 1], [1, 1]], [[1, 1], [1, 1]]]] 2 2 = none := rfl

/-- Witness for `vit_forward_distribution` at a concrete model and
input. -/
theorem vit_forward_distribution_witness :
    ∃ ys, MyvitModel.forward vitW [[[[5]]]] 1 1 = some ys ∧
      HasShape2 ys 1 1 ∧
      ∀ row ∈ ys, (∀ xv ∈ row, 0 ≤ xv) ∧ row.sum = 1 :=
  vit_forward_distribution vitW [[[[5]]]] 1 1 1 1 1 (by decide) rfl
    (by decide) (by decide) (by decide) (by decide) (by decide)
    (by decide) (by decide) (by decide)

/-! ## Model construction (`__init__` methods; claims C9 and C10) -/

/-- Initial values for one linear module (the random draws of
`nn.Linear` initialization, supplied as an oracle). -/
structure LinearDraw where
  w : ℕ → ℕ → ℝ
  b : ℕ → ℝ

/-- `nn.Linear(din, dout)`: a `(dout, din)` weight and a `dout` bias. -/
noncomputable def mkLinear (dr : LinearDraw) (din dout : ℕ) :
    LinearParams :=
  { weight := (List.range dout).map (fun i =>
      (List.range din).map (fun j => dr.w i j))
    bias := (List.range dout).map dr.b }

lemma mkLinear_wf (dr : LinearDraw) (din dout : ℕ) :
    (mkLinear dr din dout).WF din dout := by
  refine ⟨⟨by simp [mkLinear], ?_⟩, by simp [mkLinear]⟩
  intro row hrow
  obtain ⟨i, _, rfl⟩ := List.mem_map.mp hrow
  simp

structure MSADraws where
  q : ℕ → LinearDraw
  k : ℕ → LinearDraw
  v : ℕ → LinearDraw

/-- `MyMSA.__init__(d, n_heads)` (lines 33-45): `n_heads = 0` makes the
Python `d % n_heads` raise, otherwise the assert requires
`d % n_heads == 0`; then `d_head = int(d / n_heads)` and one
`Linear(d_head, d_head)` per head and per projection. -/
noncomputable def MyMSAInit (d n_heads : ℕ) (dr : MSADraws) :
    Option MSAParams :=
  if n_heads = 0 then none
  else if d % n_heads = 0 then
    some { n_heads := n_heads
           d_head := d / n_heads
           q_mappings := (List.range n_heads).map (fun hi =>
             mkLinear (dr.q hi) (d / n_heads) (d / n_heads))
           k_mappings := (List.range n_heads).map (fun hi =>
             mkLinear (dr.k hi) (d / n_heads) (d / n_heads))
           v_mappings := (List.range n_heads).map (fun hi =>
             mkLinear (dr.v hi) (d / n_heads) (d / n_heads)) }
  else none

/-- `nn.LayerNorm` initialization: scale ones, shift zeros. -/
noncomputable def LayerNormInit (d : ℕ) : LayerNormParams :=
  { gamma := List.replicate d 1
    beta := List.replicate d 0 }

structure BlockDraws where
  msa : MSADraws
  l1 : LinearDraw
  l2 : LinearDraw

/-- `MyVitBlock.__init__(hidden_d, n_heads, mlp_ratio=4)` (lines 67-79):
`mlp_ratio` is a parameter of the block constructor, default 4 in the
source; it sizes the feed-forward as `Linear(hidden_d,
mlp_ratio*hidden_d)` then `Linear(mlp_ratio*hidden_d, hidden_d)`. -/
noncomputable def MyVitBlockInit (hidden_d n_heads mlp_ratio : ℕ)
    (dr : BlockDraws) : Option BlockParams :=
  (MyMSAInit hidden_d n_heads dr.msa).map (fun msa =>
    { norm1 := LayerNormInit hidden_d
      mhsa := msa
      norm2 := LayerNormInit hidden_d
      mlp1 := mkLinear dr.l1 hidden_d (mlp_ratio * hidden_d)
      mlp2 := mkLinear dr.l2 (mlp_ratio * hidden_d) hidden_d })

structure MyvitDraws where
  mapper : LinearDraw
  clsTok : ℕ → ℝ
  blockDr : ℕ → BlockDraws
  headDr : LinearDraw

/-- `Myvit.__init__` (lines 87-122): `n_patches = 0` makes the modulus
on line 99 raise; lines 99-100 assert divisibility of height and width
by the patch count; the blocks are built by
`MyVitBlock(hidden_d, n_heads)` — `mlp_ratio` is not passed, so the
Python default 4 applies — and the MSA head-count assert runs once per
constructed block. -/
noncomputable def MyvitInit (chw : ℕ × ℕ × ℕ)
    (n_patches n_blocks hidden_d n_heads out_d : ℕ) (dr : MyvitDraws) :
    Option MyvitModel :=
  if n_patches = 0 then none
  else if chw.2.1 % n_patches ≠ 0 then none
  else if chw.2.2 % n_patches ≠ 0 then none
  else
    ((List.range n_blocks).mapM (fun bi =>
        MyVitBlockInit hidden_d n_heads 4 (dr.blockDr bi))).map
      (fun blocks =>
        { chw := chw
          n_patches := n_patches
          hidden_d := hidden_d
          linear_mapper := mkLinear dr.mapper
            (chw.1 * (chw.2.1 / n_patches) * (chw.2.2 / n_patches))
            hidden_d
          class_token := (List.range hidden_d).map dr.clsTok
          pos_embed := posEmbedInit n_patches hidden_d
          blocks := blocks
          headMlp := mkLinear dr.headDr hidden_d out_d })

lemma isSome_option_map (f : α → β) (o : Option α) :
    (o.map f).isSome = o.isSome := by
  cases o <;> rfl

lemma myMSAInit_isSome_iff (d n_heads : ℕ) (dr : MSADraws) :
    (MyMSAInit d n_heads dr).isSome ↔
      (n_heads ≠ 0 ∧ d % n_heads = 0) := by
  unfold MyMSAInit
  by_cases h1 : n_heads = 0
  · simp [h1]
  · rw [if_neg h1]
    by_cases h2 : d % n_heads = 0
    · simp [h1, h2]
    · simp [h1, h2]

lemma myVitBlockInit_isSome_iff (hidden_d n_heads mlp_ratio : ℕ)
    (dr : BlockDraws) :
    (MyVitBlockInit hidden_d n_heads mlp_ratio dr).isSome ↔
      (n_heads ≠ 0 ∧ hidden_d % n_heads = 0) := by
  unfold MyVitBlockInit
  rw [isSome_option_map]
  exact myMSAInit_isSome_iff _ _ _

/-- C9 (amended): model construction succeeds iff the patch count is
nonzero (a zero patch count makes the Python modulus raise), the
configured height and width are divisible by the patch count, and
either `n_blocks = 0` — in which case the head-count check never runs,
because it lives in the per-block attention constructor — or the head
count is nonzero and divides `hidden_d`.  In particular a
non-divisible image dimension always fails, a non-dividing head count
fails only when at least one block is built, and construction succeeds
whenever both divisibility conditions hold with nonzero divisors. -/
theorem myvit_init_iff (chw : ℕ × ℕ × ℕ)
    (n_patches n_blocks hidden_d n_heads out_d : ℕ) (dr : MyvitDraws) :
    (MyvitInit chw n_patches n_blocks hidden_d n_heads out_d dr).isSome ↔
      (n_patches ≠ 0 ∧ chw.2.1 % n_patches = 0 ∧
        chw.2.2 % n_patches = 0 ∧
        (n_blocks = 0 ∨ (n_heads ≠ 0 ∧ hidden_d % n_heads = 0))) := by
  unfold MyvitInit
  by_cases h1 : n_patches = 0
  · simp [h1]
  rw [if_neg h1]
  by_cases h2 : chw.2.1 % n_patches = 0
  swap
  · rw [if_pos h2]
    simp [h1, h2]
  rw [if_neg (by simpa using h2)]
  by_cases h3 : chw.2.2 % n_patches = 0
  swap
  · rw [if_pos h3]
    simp [h1, h2, h3]
  rw [if_neg (by simpa using h3)]
  rw [isSome_option_map]
  simp only [h1, h2, h3, ne_eq, not_false_eq_true, true_and]
  constructor
  · intro hsome
    by_cases hnb : n_blocks = 0
    · exact Or.inl hnb
    · refine Or.inr ?_
      by_contra hnot
      have hfail : MyVitBlockInit hidden_d n_heads 4 (dr.blockDr 0) =
          none :=
        Option.not_isSome_iff_eq_none.mp (by
          rw [myVitBlockInit_isSome_iff]
          exact hnot)
      rw [mapM_option_eq_none
        (List.mem_range.mpr (Nat.pos_of_ne_zero hnb)) hfail] at hsome
      simp at hsome
  · intro hcase
    rcases hcase with rfl | ⟨hh, hdvd⟩
    · rfl
    · apply mapM_option_isSome
      intro bi _
      exact (myVitBlockInit_isSome_iff _ _ _ _).mpr ⟨hh, hdvd⟩

noncomputable def zeroLinearDraw : LinearDraw := ⟨fun _ _ => 0, fun _ => 0⟩

noncomputable def zeroBlockDraws : BlockDraws :=
  ⟨⟨fun _ => zeroLinearDraw, fun _ => zeroLinearDraw,
    fun _ => zeroLinearDraw⟩, zeroLinearDraw, zeroLinearDraw⟩

noncomputable def zeroDraws : MyvitDraws :=
  ⟨zeroLinearDraw, fun _ => 0, fun _ => zeroBlockDraws, zeroLinearDraw⟩

/-- C9 counterexample: with `n_blocks = 0` no attention module is ever
built, so construction with `hidden_d = 3`, `n_heads = 2` succeeds even
though `3 % 2 ≠ 0`, where the claim demands a configuration error. -/
theorem myvit_init_skips_head_check :
    (MyvitInit (1, 4, 4) 2 0 3 2 1 zeroDraws).isSome = true := rfl

lemma mapM_option_mem {f : α → Option β} {l : List α} {ys : List β}
    (h : l.mapM f = some ys) : ∀ y ∈ ys, ∃ a ∈ l, f a = some y := by
  induction l generalizing ys with
  | nil =>
    obtain rfl : ([] : List β) = ys := Option.some.inj h
    simp
  | cons a t ih =>
    rw [List.mapM_cons] at h
    cases hfa : f a with
    | none =>
      rw [hfa] at h
      simp at h
    | some b =>
      rw [hfa] at h
      cases hmt : t.mapM f with
      | none =>
        rw [hmt] at h
        simp at h
      | some bs =>
        rw [hmt] at h
        obtain rfl : b :: bs = ys := by simpa using h
        intro y hy
        rcases List.mem_cons.mp hy with rfl | hy'
        · exact ⟨a, by simp, hfa⟩
        · obtain ⟨a', ha', hfa'⟩ := ih hmt y hy'
          exact ⟨a', List.mem_cons_of_mem a ha', hfa'⟩

lemma myVitBlockInit_mlp_shapes {hidden_d n_heads mlp_ratio : ℕ}
    {dr : BlockDraws} {bp : BlockParams}
    (hbp : MyVitBlockInit hidden_d n_heads mlp_ratio dr = some bp) :
    bp.mlp1.WF hidden_d (mlp_ratio * hidden_d) ∧
      bp.mlp2.WF (mlp_ratio * hidden_d) hidden_d := by
  unfold MyVitBlockInit at hbp
  obtain ⟨msa, hmsa, hrec⟩ := Option.map_eq_some'.mp hbp
  subst hrec
  exact ⟨mkLinear_wf _ _ _, mkLinear_wf _ _ _⟩

/-- C10 (amended): `mlp_ratio` is a configuration option of the block
constructor `MyVitBlock.__init__`, with source default 4, and for every
value passed there the block's feed-forward expands `hidden_d` to
`mlp_ratio * hidden_d`.  The model constructor `Myvit.__init__` does
not accept `mlp_ratio` and builds its blocks as
`MyVitBlock(hidden_d, n_heads)`, so every block of every constructed
model uses the default expansion factor 4. -/
theorem mlp_ratio_spec (hidden_d n_heads mlp_ratio : ℕ) (dr : BlockDraws)
    (bp : BlockParams)
    (hbp : MyVitBlockInit hidden_d n_heads mlp_ratio dr = some bp) :
    (bp.mlp1.WF hidden_d (mlp_ratio * hidden_d) ∧
      bp.mlp2.WF (mlp_ratio * hidden_d) hidden_d) ∧
    ∀ chw n_patches n_blocks out_d dr2 m,
      MyvitInit chw n_patches n_blocks hidden_d n_heads out_d dr2 =
        some m →
      ∀ b ∈ m.blocks, b.mlp1.WF hidden_d (4 * hidden_d) ∧
        b.mlp2.WF (4 * hidden_d) hidden_d := by
  refine ⟨myVitBlockInit_mlp_shapes hbp, ?_⟩
  intro chw n_patches n_blocks out_d dr2 m hm b hb
  unfold MyvitInit at hm
  by_cases h1 : n_patches = 0
  · rw [if_pos h1] at hm
    simp at hm
  rw [if_neg h1] at hm
  by_cases h2 : chw.2.1 % n_patches ≠ 0
  · rw [if_pos h2] at hm
    simp at hm
  rw [if_neg h2] at hm
  by_cases h3 : chw.2.2 % n_patches ≠ 0
  · rw [if_pos h3] at hm
    simp at hm
  rw [if_neg h3] at hm
  obtain ⟨bs, hmapM, hrec⟩ := Option.map_eq_some'.mp hm
  subst hrec
  obtain ⟨bi, _, hbi⟩ := mapM_option_mem hmapM b hb
  exact myVitBlockInit_mlp_shapes hbi

/-- C10 counterexample: model construction takes no `mlp_ratio`
argument (`Myvit.__init__`, lines 87 and 116), and at a concrete
configuration with `hidden_d = 2` the constructed model's only block
has a first feed-forward weight of `4 * 2 = 8` rows: the expansion
factor cannot be chosen at model construction and is always 4. -/
theorem mlp_ratio_counterexample :
    ((MyvitInit (1, 2, 2) 1 1 2 1 1 zeroDraws).map
      (fun m => m.blocks.map (fun b => b.mlp1.weight.length))) =
      some [4 * 2] := rfl

/-- Witness for `mlp_ratio_spec` at a concrete block construction with
`mlp_ratio = 2`. -/
theorem mlp_ratio_spec_witness :
    ∃ bp, MyVitBlockInit 1 1 2 zeroBlockDraws = some bp ∧
      ((bp.mlp1.WF 1 (2 * 1) ∧ bp.mlp2.WF (2 * 1) 1) ∧
        ∀ chw n_patches n_blocks out_d dr2 m,
          MyvitInit chw n_patches n_blocks 1 1 out_d dr2 = some m →
          ∀ b ∈ m.blocks, b.mlp1.WF 1 (4 * 1) ∧ b.mlp2.WF (4 * 1) 1) :=
  ⟨_, rfl, mlp_ratio_spec 1 1 2 zeroBlockDraws _ rfl⟩

end VIT
